import Mathlib

/-!
# Markov-switching multifractal model (binomial-tree variant)

A shallow embedding of `msm-model.go` and of the flag handling and the result rows of
`main.go`.

* `float64` is read as `ℝ`; the purely algebraic routines (`probMat`, the
  Hamilton update) are written over an arbitrary field so that they can be
  evaluated over `ℚ`.
* A second embedding of the likelihood filter (`negloglikF` and the functions it calls)
  keeps the special values of `float64`: NaN, the infinities, and the overflow and
  underflow of `math.Exp`.  In `predict` a NaN is `none`.
* Go slices are lists; a `mat.Dense` is the list of its rows.
* Go `int`s are unbounded naturals: the `2^k` states have to fit in memory
  long before a machine word overflows.
* A run-time panic (index out of range, gonum dimension mismatch) is `none`.
* The command-line flags are integers that may be negative; what the optimizer and the
  random draws return is an argument of the function that uses it.
-/

namespace MSM

/-! ## gonum `mat` -/

/-- Number of rows of a dense matrix. -/
def rows {α : Type} (m : List (List α)) : ℕ := m.length

/-- Number of columns of a dense matrix (the length of its first row). -/
def cols {α : Type} (m : List (List α)) : ℕ := (m.headD []).length

/-- Entry `(i, j)` of a dense matrix; `0` outside the matrix. -/
def entry {α : Type} [Zero α] (m : List (List α)) (i j : ℕ) : α :=
  (m.getD i []).getD j 0

/-- One row of the Kronecker product: every entry of `ra` scales the row `rb`. -/
def kronRow {α : Type} [Mul α] (ra rb : List α) : List α :=
  ra.flatMap fun x => rb.map fun y => x * y

/-- Kronecker product `mat.Dense.Kronecker(a, b)`: the block at block-position
`(i, j)` is `a[i][j] * b`, so row `i * rows b + i'` is built from row `i` of `a`
and row `i'` of `b`. -/
def kronecker {α : Type} [Mul α] (a b : List (List α)) : List (List α) :=
  a.flatMap fun ra => b.map fun rb => kronRow ra rb

/-- Inner product `sum_i r[i] * v[i]`. -/
def dot {α : Type} [Zero α] [Add α] [Mul α] (r v : List α) : α :=
  (List.zipWith (fun a b => a * b) r v).foldl (fun acc t => acc + t) 0

/-- Matrix-vector product `tmp.Mul(A, mat.NewDense(n, 1, B))` followed by the reads
`tmp.At(j, 0)` for `j < n`.  `NewDense` panics for `n = 0`, `Mul` panics unless `A`
has `n` columns, and `At` panics unless the product has at least `n` rows. -/
def mulVec {α : Type} [Zero α] [Add α] [Mul α] (A : List (List α)) (B : List α) :
    Option (List α) :=
  if 0 < B.length ∧ cols A = B.length ∧ B.length ≤ rows A then
    some (A.map fun r => dot r B)
  else none

/-! ## Transition matrix -/

/-- Body of the loop of `probMat`: fill the 2×2 matrix `a` for the switching
probability `pi` and replace `c` by `Kronecker(c, a)`. -/
def probMatStep {α : Type} [Field α] (c : List (List α)) (pi : α) : List (List α) :=
  let gi := pi * 0.5
  kronecker c [[1.0 - gi, gi], [gi, 1.0 - gi]]

/-- Transition matrix of the product chain (`probMat`). -/
def probMat {α : Type} [Field α] (p : List α) : List (List α) :=
  p.foldl probMatStep [[1.0]]

/-! ## States and volatilities -/

/-- Population count `bits.OnesCount`: the sum of the binary digits. -/
def onesCount (n : ℕ) : ℕ := (Nat.digits 2 n).sum

/-- Number of "on" chains of every joint state (`states`). -/
def states (k : ℕ) : List ℕ :=
  (List.range (2 ^ k)).map onesCount

/-- Volatility of every state (`sigma`); `math.Pow` with integral exponents. -/
noncomputable def sigma (m0 s0 : ℝ) (k : ℕ) (M : List ℕ) : List ℝ :=
  let m1 := 2.0 - m0
  M.map fun (a : ℕ) => s0 * Real.sqrt (m1 ^ a * m0 ^ ((k : ℤ) - (a : ℤ)))

/-! ## Parameter transform -/

/-- Logistic function (`sigmoid`). -/
noncomputable def sigmoid (x : ℝ) : ℝ := 1.0 / (1.0 + Real.exp (-1.0 * x))

/-- Map of the optimiser domain to the parameter domain (`transformParams`);
reading `par[0]`, `par[1]` panics when `par` has fewer than two entries. -/
noncomputable def transformParams : List ℝ → Option (List ℝ)
  | u0 :: u1 :: rest => some ((1.0 + sigmoid u0) :: Real.exp u1 :: rest.map sigmoid)
  | _ => none

/-! ## Likelihood filter -/

/-- The constant `ISPI = 1 / sqrt 2 / sqrt pi`. -/
noncomputable def ISPI : ℝ := 1.0 / Real.sqrt 2 / Real.sqrt Real.pi

/-- Conditional densities `wx` of one observation `xi`, one per state. -/
noncomputable def density (s : List ℝ) (xi : ℝ) : List ℝ :=
  s.map fun sj => ISPI * Real.exp (-0.5 * xi * xi / sj / sj) / sj

/-- Arithmetic of one pass of the loop of `negloglik` once `wx` is known:
`tmp = A * B`, `sw = sum_j wx[j] * tmp[j]`, `B[j] = wx[j] * tmp[j] / sw`.
Returns `sw` and the new `B`. -/
def filterUpdate {α : Type} [Field α] (A : List (List α)) (wx B : List α) :
    Option (α × List α) :=
  match mulVec A B with
  | none => none
  | some tmp =>
    let sw := dot wx tmp
    some (sw, List.zipWith (fun w t => w * t / sw) wx tmp)

/-- One pass of the loop of `negloglik` on the loop state `(ll, B)`. -/
noncomputable def filterStep (A : List (List ℝ)) (s : List ℝ) (st : ℝ × List ℝ) (xi : ℝ) :
    Option (ℝ × List ℝ) :=
  match filterUpdate A (density s xi) st.2 with
  | none => none
  | some (sw, B) => some (st.1 + Real.log sw, B)

/-- The loop of `negloglik` over the observations, from the loop state `st`. -/
noncomputable def filterRun (A : List (List ℝ)) (s : List ℝ) (st : ℝ × List ℝ) (x : List ℝ) :
    Option (ℝ × List ℝ) :=
  x.foldlM (filterStep A s) st

/-- Negative log-likelihood of the model (`negloglik`). -/
noncomputable def negloglik (par x : List ℝ) (k : ℕ) (M : List ℕ) : Option ℝ :=
  match transformParams par with
  | some (m0 :: s0 :: ps) =>
    let n := M.length
    let A := probMat ps
    let s := sigma m0 s0 k M
    let B := List.replicate n (1.0 / (n : ℝ))
    match filterRun A s (0.0, B) x with
    | none => none
    | some (ll, _) => some (-ll)
  | _ => none

/-! ## Prediction -/

/-- Arithmetic mean of a list of reals. -/
noncomputable def sampleMean (x : List ℝ) : ℝ := x.sum / (x.length : ℝ)

/-- Sample standard deviation of a list of reals (unbiased, divisor `n - 1`). -/
noncomputable def sampleStdDev (x : List ℝ) : ℝ :=
  Real.sqrt ((x.map fun v => (v - sampleMean x) ^ 2).sum / ((x.length : ℝ) - 1))

/-- Sample mean `stat.Mean(x, nil)`; `none` is NaN, its value `0/0` for an empty `x`. -/
noncomputable def Mean (x : List ℝ) : Option ℝ :=
  if x.length = 0 then none else some (sampleMean x)

/-- Sample standard deviation `stat.StdDev(x, nil)`; `none` is NaN, its value for fewer
than two observations. -/
noncomputable def StdDev (x : List ℝ) : Option ℝ :=
  if x.length < 2 then none else some (sampleStdDev x)

/-- The numbers in a slice of `float64`s, `none` as soon as one entry is NaN (`none`): a sum
over such a slice is NaN. -/
def values {α : Type} : List (Option α) → Option (List α)
  | [] => some []
  | none :: _ => none
  | some a :: l => (values l).map fun t => a :: t

/-- What `predict` returns and what it prints; `none` is NaN. -/
structure PredictOut where
  /-- The returned slice `res`. -/
  res : List (Option ℝ)
  /-- The number printed after `Estimate:`. -/
  printedEstimate : Option ℝ
  /-- The number printed after `Std Error:`. -/
  printedStdError : Option ℝ

/-- The per-path standard deviations `vol` of `predict`; `sim i` is the path that
the `i`-th call of `simulate` returned. -/
noncomputable def pathVols (sim : ℕ → List ℝ) (paths : ℕ) : List (Option ℝ) :=
  (List.range paths).map fun i => StdDev (sim i)

/-- Volatility forecast (`predict`), with the random paths drawn by `simulate`
given as `sim`. -/
noncomputable def predict (sim : ℕ → List ℝ) (paths : ℕ) : PredictOut :=
  let vol := pathVols sim paths
  let res := [(values vol).bind Mean, (values vol).bind StdDev]
  { res := res
    printedEstimate := res.getD 0 none
    printedStdError := (res.getD 1 none).map fun sd => sd / Real.sqrt (paths : ℝ) }

/-! ## Reference definitions, following the specification -/

/-- Gaussian density of the specification, `(1/(σ√(2π))) exp(-x²/(2σ²))`. -/
noncomputable def specDensity (σ x : ℝ) : ℝ :=
  (1 / (σ * Real.sqrt (2 * Real.pi))) * Real.exp (-x ^ 2 / (2 * σ ^ 2))

/-- One-step-ahead prediction of the specification,
`predicted_j = Σ_i FilterState_i · TransitionMatrix[i][j]`. -/
def specPredicted {α : Type} [Field α] (n : ℕ) (A : List (List α)) (F : List α) : List α :=
  (List.range n).map fun j => ∑ i in Finset.range n, F.getD i 0 * entry A i j

/-- One observation of the Hamilton filter of the specification on `(ll, FilterState)`. -/
noncomputable def specFilterStep (n : ℕ) (A : List (List ℝ)) (s : List ℝ) (st : ℝ × List ℝ)
    (xt : ℝ) : ℝ × List ℝ :=
  let w : ℕ → ℝ := fun j => specDensity (s.getD j 0) xt
  let predicted := specPredicted n A st.2
  let sw := ∑ j in Finset.range n, w j * predicted.getD j 0
  (st.1 + Real.log sw, (List.range n).map fun j => w j * predicted.getD j 0 / sw)

/-- Hamilton filter of the specification: uniform start over the `2^k` states, one
`specFilterStep` per observation, result `-ll`. -/
noncomputable def specNegLogLik (A : List (List ℝ)) (s : List ℝ) (k : ℕ) (x : List ℝ) : ℝ :=
  -(x.foldl (specFilterStep (2 ^ k) A s) (0, List.replicate (2 ^ k) (1 / (2 ^ k : ℝ)))).fst

/-- Factor of one chain in an entry of the transition matrix: `1 - p/2` when the
chain keeps its bit, `p/2` when it flips. -/
def bitFactor {α : Type} [Field α] (pc : α) (bi bj : Bool) : α :=
  if bi = bj then 1 - pc / 2 else pc / 2

/-- Entry `(i, j)` of the transition matrix as the specification describes it: the
product over the chains `c` of the factor of bit `k - 1 - c`. -/
def specEntry {α : Type} [Field α] (p : List α) (i j : ℕ) : α :=
  ∏ c in Finset.range p.length,
    bitFactor (p.getD c 0) (i.testBit (p.length - 1 - c)) (j.testBit (p.length - 1 - c))

/-- Kronecker product of the list of 2×2 chain matrices, in the order of the list
(nested to the right). -/
def specKron {α : Type} [Field α] : List α → List (List α)
  | [] => [[1]]
  | pc :: ps => kronecker [[1 - pc / 2, pc / 2], [pc / 2, 1 - pc / 2]] (specKron ps)

/-- Number of set bits among the `k` low bits of `i`. -/
def setBits (k i : ℕ) : ℕ := ((Finset.range k).filter fun b => i.testBit b).card

/-! ## Predicates and sums used in the proofs -/

/-- A square matrix of dimension `n` with non-negative entries whose rows sum to one. -/
def RowStochastic (n : ℕ) (m : List (List ℝ)) : Prop :=
  rows m = n ∧ ∀ r ∈ m, r.length = n ∧ (∀ x ∈ r, 0 ≤ x) ∧ r.sum = 1

/-- A square matrix of dimension `n`. -/
def Square (n : ℕ) (m : List (List ℝ)) : Prop :=
  rows m = n ∧ ∀ r ∈ m, r.length = n

/-- Entry `j` of the product `A * B` for a square `A` of dimension `n`. -/
def predVec (n : ℕ) (A : List (List ℝ)) (B : List ℝ) (j : ℕ) : ℝ :=
  ∑ i in Finset.range n, entry A j i * B.getD i 0

/-- The marginal likelihood `sw` of one pass of the filter, as a sum over the states. -/
def margLik (n : ℕ) (A : List (List ℝ)) (wx B : List ℝ) : ℝ :=
  ∑ j in Finset.range n, wx.getD j 0 * predVec n A B j

/-- A vector of length `n` with positive entries. -/
def PosVec (n : ℕ) (v : List ℝ) : Prop :=
  v.length = n ∧ ∀ j, j < n → 0 < v.getD j 0

/-- The natural parameter domain `(1,2) × (0,∞) × (0,1)^k`. -/
def NaturalDomain (k : ℕ) (q : List ℝ) : Prop :=
  ∃ m0 s0 ps, q = m0 :: s0 :: ps ∧ ps.length = k ∧ (1 < m0 ∧ m0 < 2) ∧ 0 < s0 ∧
    ∀ p ∈ ps, 0 < p ∧ p < 1

/-- Negative log-likelihood of the specification: parameters, transition matrix and
volatilities as the program builds them, then the Hamilton filter of the specification. -/
noncomputable def specNegativeLogLikelihood (par x : List ℝ) (k : ℕ) : Option ℝ :=
  match transformParams par with
  | some (m0 :: s0 :: ps) => some (specNegLogLik (probMat ps) (sigma m0 s0 k (states k)) k x)
  | _ => none

/-- Three simulated paths `[i, -i, 0]` for `i = 0, 1, 2, ...`, used as a concrete outcome of
the calls of `simulate` inside `predict`. -/
noncomputable def simEx (i : ℕ) : List ℝ := [(i : ℝ), -(i : ℝ), 0]

/-! ## Estimation, simulation, command line -/

/-- Ascending sort `sort.Float64s`. -/
noncomputable def sortFloat64s (l : List ℝ) : List ℝ :=
  l.insertionSort fun a b => a ≤ b

/-- How a call ends: it returns a value to its caller, it ends the process through
`os.Exit`, or it panics. -/
inductive Outcome (α : Type) where
  | returned (a : α)
  | exited (code : ℤ)
  | panicked

/-- The fields of `optimize.Result` that `fit` reads: the final point and its objective
value. -/
structure OptResult where
  /-- The final point `result.X`. -/
  X : List ℝ
  /-- The objective value `result.F`. -/
  F : ℝ

/-- The part of `fit` that follows `optimize.Minimize`, whose results `result` and `err` are
given: on an error the process exits with code `-1`; otherwise the final point is
transformed, the slice `res[2:]` is sorted in place and `result.F` is appended. -/
noncomputable def fit (result : OptResult) (err : Option String) : Outcome (List ℝ) :=
  match err with
  | some _ => Outcome.exited (-1)
  | none =>
    match transformParams result.X with
    | none => Outcome.panicked
    | some res => Outcome.returned (res.take 2 ++ sortFloat64s (res.drop 2) ++ [result.F])

/-- The weights `q` of the first categorical draw of `simulate`: row 0 of the transition
matrix of `par[2:]`. -/
def simulateInit {α : Type} [Field α] (par : List α) : List α :=
  (probMat (par.drop 2)).getD 0 []

/-- Simulated returns (`simulate`).  `draw i q` is the state that the `i`-th categorical
draw returns for the weights `q` (an index of `q`) and `z i` is the `i`-th standard normal
draw.  Reading `par[0]`, `par[1]` panics for a short `par`, `make` panics for a negative
`nsims` and the write of `x[0]` panics for `nsims = 0`. -/
noncomputable def simulate (draw : ℕ → List ℝ → ℕ) (z : ℕ → ℝ) (par : List ℝ) (nsims : ℤ) :
    Option (List ℝ) :=
  match par with
  | m0 :: s0 :: p =>
    let k := p.length
    let A := probMat p
    let s := sigma m0 s0 k (states k)
    if nsims ≤ 0 then none
    else
      let st := draw 0 (simulateInit par)
      let x0 := z 0 * s.getD st 0
      some ((List.range' 1 (nsims.toNat - 1)).foldl
        (fun (acc : ℕ × List ℝ) (i : ℕ) =>
          let st := draw i (A.getD acc.1 [])
          (st, acc.2 ++ [z i * s.getD st 0]))
        (st, [x0])).2
  | _ => none

/-- The command-line flags read by `init`. -/
structure Config where
  /-- Flag `-k`. -/
  msmdim : ℤ
  /-- Flag `-w`. -/
  window : ℤ
  /-- Flag `-n`. -/
  samples : ℤ
  /-- Flag `-i`. -/
  infile : String
  /-- Flag `-o`. -/
  outfile : String

/-- The calls that `main` makes. -/
inductive Call where
  | printDefaults
  | osExit (code : ℤ)
  | getData (file : String)
  | fit (k : ℤ)
  | predict (paths pathLen : ℤ)
  | writeResults (k : ℤ) (file : String)
  deriving DecidableEq

/-- The calls of `main` in order, each call returning normally: the flags are rejected
exactly when `infile` is empty or `msmdim < 1`. -/
def main (c : Config) : List Call :=
  if c.infile = "" ∨ c.msmdim < 1 then
    [Call.printDefaults, Call.osExit (-1)]
  else
    [Call.getData c.infile, Call.fit c.msmdim, Call.predict c.samples c.window,
      Call.writeResults c.msmdim c.outfile]

/-- The header row and the data row that `writeResults` hands to the csv writer; `fmt` is
`strconv.FormatFloat(·, 'f', -1, 64)`.  Both rows are slices of `m` empty strings that are
filled by index; an index outside a slice panics. -/
def writeResults {α : Type} [Zero α] (fmt : α → String) (res : List α) (k : ℤ)
    (vol : List α) : Option (List String × List String) :=
  let m := res.length + 1 + vol.length
  if m < 4 ∨ vol.length < 2 then none
  else
    let hdrs := ((List.replicate m "").set 0 "m0").set 1 "s0"
    let hdrs := (List.range' 2 (m - 4 - 2)).foldl
      (fun h i => h.set i ("p" ++ toString (i - 1))) hdrs
    let hdrs := (((hdrs.set (m - 4) "nll").set (m - 3) "k").set (m - 2) "volmean").set
      (m - 1) "volsd"
    let dat := (List.range res.length).foldl
      (fun d i => d.set i (fmt (res.getD i 0))) (List.replicate m "")
    let dat := ((dat.set (m - 3) (toString k)).set (m - 2) (fmt (vol.getD 0 0))).set
      (m - 1) (fmt (vol.getD 1 0))
    some (hdrs, dat)

/-! ## Renaming of states -/

/-- The map `π` permutes the state indices below `n`. -/
def StatePerm (n : ℕ) (π : ℕ → ℕ) : Prop :=
  (∀ i, i < n → π i < n) ∧ ∀ i j, i < n → j < n → π i = π j → i = j

/-- The transition matrix of `p'` is the transition matrix of `p` with the states renamed
by a permutation that keeps the active-count of every state. -/
def Conjugate (p p' : List ℝ) : Prop :=
  ∃ π : ℕ → ℕ, StatePerm (2 ^ p.length) π ∧
    (∀ i, i < 2 ^ p.length → onesCount (π i) = onesCount i) ∧
    ∀ i j, i < 2 ^ p.length → j < 2 ^ p.length →
      entry (probMat p') (π i) (π j) = entry (probMat p) i j

/-- Exchange of the two low bits of `h`. -/
def swapBits (h : ℕ) : ℕ := 2 * (h % 2) + h / 2 % 2

/-! ## The likelihood filter with the special values of `float64` -/

/-- A `float64` up to rounding: NaN, an infinity, or a finite number read as a real.
Arithmetic on finite numbers is exact; the special values follow IEEE 754 and the
documentation of the Go `math` package.  The two zeros are not told apart and a zero
divisor counts as `+0`: every divisor of `negloglik` that can be zero (`s[j]`, `sw`) is a
product or a sum of non-negative numbers. -/
inductive F64 where
  | nan
  | inf (negative : Bool)
  | fin (r : ℝ)

namespace F64

/-- Sign change `-x`. -/
noncomputable def neg : F64 → F64
  | nan => nan
  | inf s => inf (!s)
  | fin r => fin (-r)

/-- Sum `x + y`; `+Inf + -Inf` is NaN. -/
noncomputable def add : F64 → F64 → F64
  | nan, _ => nan
  | _, nan => nan
  | inf s, inf t => if s = t then inf s else nan
  | inf s, fin _ => inf s
  | fin _, inf t => inf t
  | fin a, fin b => fin (a + b)

/-- Product `x * y`; `0 * Inf` is NaN. -/
noncomputable def mul : F64 → F64 → F64
  | nan, _ => nan
  | _, nan => nan
  | inf s, inf t => inf (xor s t)
  | inf s, fin b => if b = 0 then nan else inf (xor s (decide (b < 0)))
  | fin a, inf t => if a = 0 then nan else inf (xor (decide (a < 0)) t)
  | fin a, fin b => fin (a * b)

/-- Quotient `x / y`; `0/0` and `Inf/Inf` are NaN, a non-zero number over zero is an
infinity. -/
noncomputable def div : F64 → F64 → F64
  | nan, _ => nan
  | _, nan => nan
  | inf _, inf _ => nan
  | inf s, fin b => inf (xor s (decide (b < 0)))
  | fin _, inf _ => fin 0
  | fin a, fin b =>
    if b = 0 then (if a = 0 then nan else inf (decide (a < 0))) else fin (a / b)

/-- Largest argument of `math.Exp` that does not overflow. -/
noncomputable def expOverflow : ℝ := 7.09782712893383973096e+02

/-- Smallest argument of `math.Exp` that does not underflow to zero. -/
noncomputable def expUnderflow : ℝ := -7.45133219101941108420e+02

/-- Exponential `math.Exp`: it overflows to `+Inf` above `expOverflow` and underflows to `0`
below `expUnderflow`. -/
noncomputable def exp : F64 → F64
  | nan => nan
  | inf s => if s then fin 0 else inf false
  | fin r =>
    if expOverflow < r then inf false
    else if r < expUnderflow then fin 0
    else fin (Real.exp r)

/-- Natural logarithm `math.Log`: `Log(0) = -Inf`, `Log(x < 0) = NaN`. -/
noncomputable def log : F64 → F64
  | nan => nan
  | inf s => if s then nan else inf false
  | fin r => if r < 0 then nan else if r = 0 then inf true else fin (Real.log r)

/-- Square root `math.Sqrt`: `Sqrt(x < 0) = NaN`. -/
noncomputable def sqrt : F64 → F64
  | nan => nan
  | inf s => if s then nan else inf false
  | fin r => if r < 0 then nan else fin (Real.sqrt r)

/-- Power `math.Pow(x, float64(n))` for an integer `n`: `Pow(x, 0) = 1` for every `x`,
`Pow(0, n) = +Inf` for `n < 0`. -/
noncomputable def pow (x : F64) (n : ℤ) : F64 :=
  if n = 0 then fin 1
  else
    match x with
    | nan => nan
    | inf s => if n < 0 then fin 0 else inf (s && decide (n % 2 = 1))
    | fin r => if r = 0 ∧ n < 0 then inf false else fin (r ^ n)

noncomputable instance : Zero F64 := ⟨fin 0⟩

noncomputable instance : Neg F64 := ⟨neg⟩

noncomputable instance : Add F64 := ⟨add⟩

noncomputable instance : Sub F64 := ⟨fun x y => add x (neg y)⟩

noncomputable instance : Mul F64 := ⟨mul⟩

noncomputable instance : Div F64 := ⟨div⟩

end F64

/-- Logistic function (`sigmoid`) on `float64`. -/
noncomputable def sigmoidF (x : F64) : F64 :=
  F64.fin 1.0 / (F64.fin 1.0 + F64.exp (F64.fin (-1.0) * x))

/-- The function `transformParams` on `float64`. -/
noncomputable def transformParamsF : List F64 → Option (List F64)
  | u0 :: u1 :: rest => some ((F64.fin 1.0 + sigmoidF u0) :: F64.exp u1 :: rest.map sigmoidF)
  | _ => none

/-- Body of the loop of `probMat` on `float64`. -/
noncomputable def probMatStepF (c : List (List F64)) (pi : F64) : List (List F64) :=
  let gi := pi * F64.fin 0.5
  kronecker c [[F64.fin 1.0 - gi, gi], [gi, F64.fin 1.0 - gi]]

/-- The function `probMat` on `float64`. -/
noncomputable def probMatF (p : List F64) : List (List F64) :=
  p.foldl probMatStepF [[F64.fin 1.0]]

/-- The function `sigma` on `float64`. -/
noncomputable def sigmaF (m0 s0 : F64) (k : ℕ) (M : List ℕ) : List F64 :=
  let m1 := F64.fin 2.0 - m0
  M.map fun (a : ℕ) =>
    s0 * F64.sqrt (F64.pow m1 (a : ℤ) * F64.pow m0 ((k : ℤ) - (a : ℤ)))

/-- Conditional densities `wx` of one observation on `float64`. -/
noncomputable def densityF (s : List F64) (xi : F64) : List F64 :=
  s.map fun sj => F64.fin ISPI * F64.exp (F64.fin (-0.5) * xi * xi / sj / sj) / sj

/-- One pass of the arithmetic of the loop of `negloglik` on `float64`. -/
noncomputable def filterUpdateF (A : List (List F64)) (wx B : List F64) :
    Option (F64 × List F64) :=
  match mulVec A B with
  | none => none
  | some tmp =>
    let sw := dot wx tmp
    some (sw, List.zipWith (fun w t => w * t / sw) wx tmp)

/-- One pass of the loop of `negloglik` on `float64`, on the loop state `(ll, B)`. -/
noncomputable def filterStepF (A : List (List F64)) (s : List F64) (st : F64 × List F64)
    (xi : F64) : Option (F64 × List F64) :=
  match filterUpdateF A (densityF s xi) st.2 with
  | none => none
  | some (sw, B) => some (st.1 + F64.log sw, B)

/-- The loop of `negloglik` on `float64`. -/
noncomputable def filterRunF (A : List (List F64)) (s : List F64) (st : F64 × List F64)
    (x : List F64) : Option (F64 × List F64) :=
  x.foldlM (filterStepF A s) st

/-- The function `negloglik` on `float64`. -/
noncomputable def negloglikF (par x : List F64) (k : ℕ) (M : List ℕ) : Option F64 :=
  match transformParamsF par with
  | some (m0 :: s0 :: ps) =>
    let n := M.length
    let A := probMatF ps
    let s := sigmaF m0 s0 k M
    let B := List.replicate n (F64.fin 1.0 / F64.fin (n : ℝ))
    match filterRunF A s (F64.fin 0.0, B) x with
    | none => none
    | some (ll, _) => some (-ll)
  | _ => none

/-! ## Lists built from pairs -/

theorem getElem?_flatMap_pair {β γ : Type} (f g : β → γ) (l : List β) (i : ℕ) :
    (l.flatMap fun x => [f x, g x])[i]? =
      (l[i / 2]?).map (fun x => if i % 2 = 0 then f x else g x) := by
  induction l generalizing i with
  | nil => simp
  | cons a l ih =>
    match i with
    | 0 => simp
    | 1 => simp
    | i + 2 =>
      have h1 : (i + 2) / 2 = i / 2 + 1 := by omega
      have h2 : (i + 2) % 2 = i % 2 := by omega
      simp only [List.flatMap_cons, List.cons_append, List.nil_append, List.getElem?_cons_succ,
        h1, h2]
      exact ih i

theorem length_flatMap_pair {β γ : Type} (f g : β → γ) (l : List β) :
    (l.flatMap fun x => [f x, g x]).length = 2 * l.length := by
  induction l with
  | nil => simp
  | cons a l ih =>
    simp only [List.flatMap_cons, List.length_append, ih, List.length_cons]
    simp
    omega

theorem sum_flatMap_pair (f g : ℝ → ℝ) (l : List ℝ) :
    (l.flatMap fun x => [f x, g x]).sum = (l.map fun x => f x + g x).sum := by
  induction l with
  | nil => simp
  | cons a l ih =>
    simp only [List.flatMap_cons, List.sum_append, ih, List.map_cons, List.sum_cons]
    simp

/-! ## Kronecker product -/

theorem kronecker_two {α : Type} [Mul α] (a : List (List α)) (p q r s : α) :
    kronecker a [[p, q], [r, s]] =
      a.flatMap fun ra => [ra.flatMap (fun x => [x * p, x * q]),
        ra.flatMap (fun x => [x * r, x * s])] := by
  simp [kronecker, kronRow]

theorem entry_kronecker_two {α : Type} [MulZeroClass α] (a : List (List α)) (p q r s : α)
    (i j : ℕ) :
    entry (kronecker a [[p, q], [r, s]]) i j =
      entry a (i / 2) (j / 2) *
        (if i % 2 = 0 then (if j % 2 = 0 then p else q) else (if j % 2 = 0 then r else s)) := by
  rw [kronecker_two]
  simp only [entry, List.getD_eq_getElem?_getD, getElem?_flatMap_pair]
  cases hi : a[i / 2]? with
  | none => simp
  | some ra =>
    by_cases h : i % 2 = 0
    · simp only [Option.map_some', h, if_true, Option.getD_some, getElem?_flatMap_pair]
      cases hj : ra[j / 2]? with
      | none => simp
      | some x => by_cases h2 : j % 2 = 0 <;> simp [h2]
    · simp only [Option.map_some', h, if_false, Option.getD_some, getElem?_flatMap_pair]
      cases hj : ra[j / 2]? with
      | none => simp
      | some x => by_cases h2 : j % 2 = 0 <;> simp [h2]

theorem kronRow_assoc (ra rb rc : List ℝ) :
    kronRow (kronRow ra rb) rc = kronRow ra (kronRow rb rc) := by
  simp [kronRow, List.flatMap_assoc, List.flatMap_map, List.map_flatMap, mul_assoc]

theorem kronecker_assoc (a b c : List (List ℝ)) :
    kronecker (kronecker a b) c = kronecker a (kronecker b c) := by
  simp [kronecker, List.flatMap_assoc, List.flatMap_map, List.map_flatMap, kronRow_assoc,
    Function.comp_def]

theorem kronecker_one_left (m : List (List ℝ)) : kronecker [[1]] m = m := by
  simp [kronecker, kronRow]

theorem kronecker_one_right (m : List (List ℝ)) : kronecker m [[1]] = m := by
  simp [kronecker, kronRow]

/-! ## Transition matrix -/

theorem probMat_snoc (p : List ℝ) (q : ℝ) :
    probMat (p ++ [q]) = probMatStep (probMat p) q := by
  simp [probMat, List.foldl_append]

theorem entry_probMat_snoc (p : List ℝ) (q : ℝ) (i j : ℕ) :
    entry (probMat (p ++ [q])) i j =
      entry (probMat p) (i / 2) (j / 2) * (if i % 2 = j % 2 then 1 - q / 2 else q / 2) := by
  rw [probMat_snoc, probMatStep, entry_kronecker_two]
  congr 1
  have hi : i % 2 = 0 ∨ i % 2 = 1 := by omega
  have hj : j % 2 = 0 ∨ j % 2 = 1 := by omega
  rcases hi with hi | hi <;> rcases hj with hj | hj <;> simp [hi, hj] <;> norm_num <;> ring

theorem rowStochastic_step (n : ℕ) (m : List (List ℝ)) (q : ℝ) (hq0 : 0 ≤ q) (hq1 : q ≤ 2)
    (h : RowStochastic n m) : RowStochastic (2 * n) (probMatStep m q) := by
  obtain ⟨hr, hm⟩ := h
  have hg0 : (0 : ℝ) ≤ q * 0.5 := by norm_num; linarith
  have hg1 : (0 : ℝ) ≤ 1.0 - q * 0.5 := by norm_num; linarith
  have key : ∀ (u v : ℝ), 0 ≤ u → 0 ≤ v → u + v = 1 → ∀ ra ∈ m,
      (ra.flatMap fun x => [x * u, x * v]).length = 2 * n ∧
      (∀ y ∈ (ra.flatMap fun x => [x * u, x * v]), 0 ≤ y) ∧
      (ra.flatMap fun x => [x * u, x * v]).sum = 1 := by
    intro u v hu hv huv ra hra
    obtain ⟨h1, h2, h3⟩ := hm ra hra
    refine ⟨by rw [length_flatMap_pair, h1], ?_, ?_⟩
    · intro y hy
      simp only [List.mem_flatMap, List.mem_cons, List.mem_singleton, List.not_mem_nil,
        or_false] at hy
      obtain ⟨x, hx, rfl | rfl⟩ := hy
      · exact mul_nonneg (h2 x hx) hu
      · exact mul_nonneg (h2 x hx) hv
    · rw [sum_flatMap_pair]
      have : (fun x : ℝ => x * u + x * v) = fun x => x := by
        funext x; rw [← mul_add, huv, mul_one]
      rw [this, List.map_id', h3]
  refine ⟨?_, ?_⟩
  · rw [probMatStep, kronecker_two, rows, length_flatMap_pair]
    rw [rows] at hr; rw [hr]
  · intro r hr'
    rw [probMatStep, kronecker_two] at hr'
    simp only [List.mem_flatMap, List.mem_cons, List.mem_singleton, List.not_mem_nil,
      or_false] at hr'
    obtain ⟨ra, hra, rfl | rfl⟩ := hr'
    · exact key _ _ hg1 hg0 (by ring) ra hra
    · exact key _ _ hg0 hg1 (by ring) ra hra

theorem rowStochastic_probMat (p : List ℝ) (hp : ∀ q ∈ p, 0 ≤ q ∧ q ≤ 2) :
    RowStochastic (2 ^ p.length) (probMat p) := by
  induction p using List.reverseRecOn with
  | nil =>
    refine ⟨by simp [probMat, rows], ?_⟩
    intro r hr
    simp only [probMat, List.foldl_nil, List.mem_singleton] at hr
    subst hr
    norm_num
  | append_singleton p q ih =>
    rw [probMat_snoc, List.length_append, List.length_singleton, pow_succ, mul_comm]
    have hq := hp q (by simp)
    exact rowStochastic_step _ _ q hq.1 hq.2 (ih fun x hx => hp x (by simp [hx]))

theorem cols_of_rowStochastic (n : ℕ) (hn : 0 < n) (m : List (List ℝ))
    (h : RowStochastic n m) : cols m = n := by
  obtain ⟨hr, hm⟩ := h
  cases m with
  | nil => simp [rows] at hr; omega
  | cons r m => exact (hm r (by simp)).1

theorem bitFactor_zero (q : ℝ) (i j : ℕ) :
    bitFactor q (i.testBit 0) (j.testBit 0) = if i % 2 = j % 2 then 1 - q / 2 else q / 2 := by
  have hi : i % 2 = 0 ∨ i % 2 = 1 := by omega
  have hj : j % 2 = 0 ∨ j % 2 = 1 := by omega
  rcases hi with hi | hi <;> rcases hj with hj | hj <;>
    simp [bitFactor, Nat.testBit_zero, hi, hj]

theorem specEntry_snoc (p : List ℝ) (q : ℝ) (i j : ℕ) :
    specEntry (p ++ [q]) i j =
      specEntry p (i / 2) (j / 2) * (if i % 2 = j % 2 then 1 - q / 2 else q / 2) := by
  unfold specEntry
  rw [List.length_append, List.length_singleton, Finset.prod_range_succ]
  congr 1
  · apply Finset.prod_congr rfl
    intro c hc
    rw [Finset.mem_range] at hc
    have e : p.length + 1 - 1 - c = (p.length - 1 - c) + 1 := by omega
    rw [e, Nat.testBit_succ, Nat.testBit_succ, List.getD_append _ _ _ _ hc]
  · have e : p.length + 1 - 1 - p.length = 0 := by omega
    rw [e, bitFactor_zero]
    simp [List.getD_eq_getElem?_getD]

theorem entry_probMat (p : List ℝ) (i j : ℕ) (hi : i < 2 ^ p.length) (hj : j < 2 ^ p.length) :
    entry (probMat p) i j = specEntry p i j := by
  induction p using List.reverseRecOn generalizing i j with
  | nil =>
    simp only [List.length_nil, pow_zero, Nat.lt_one_iff] at hi hj
    subst hi; subst hj
    simp [probMat, entry, specEntry]
    norm_num
  | append_singleton p q ih =>
    rw [List.length_append, List.length_singleton, pow_succ] at hi hj
    rw [entry_probMat_snoc, specEntry_snoc, ih _ _ (by omega) (by omega)]

theorem foldl_probMatStep (c : List (List ℝ)) (p : List ℝ) :
    p.foldl probMatStep c = kronecker c (specKron p) := by
  induction p generalizing c with
  | nil => simp [specKron, kronecker_one_right]
  | cons q ps ih =>
    rw [List.foldl_cons, ih, specKron, ← kronecker_assoc]
    congr 1
    simp only [probMatStep]
    have e : q * 0.5 = q / 2 := by norm_num; ring
    rw [e]
    norm_num

theorem probMat_eq_specKron (p : List ℝ) : probMat p = specKron p := by
  rw [probMat, foldl_probMatStep]
  norm_num [kronecker_one_left]

/-! ## States -/

theorem onesCount_step (i : ℕ) : onesCount i = i % 2 + onesCount (i / 2) := by
  rcases Nat.eq_zero_or_pos i with h | h
  · subst h; simp [onesCount]
  · simp [onesCount, Nat.digits_def' (by norm_num : 1 < 2) h]

theorem setBits_step (k i : ℕ) : setBits (k + 1) i = i % 2 + setBits k (i / 2) := by
  unfold setBits
  rw [Finset.card_filter, Finset.card_filter, Finset.sum_range_succ', add_comm]
  congr 1
  · have hi : i % 2 = 0 ∨ i % 2 = 1 := by omega
    rcases hi with hi | hi <;> simp [Nat.testBit_zero, hi]
  · apply Finset.sum_congr rfl
    intro b _
    rw [Nat.testBit_succ]

theorem onesCount_eq_setBits (k i : ℕ) (hi : i < 2 ^ k) : onesCount i = setBits k i := by
  induction k generalizing i with
  | zero =>
    simp only [pow_zero, Nat.lt_one_iff] at hi
    subst hi; simp [onesCount, setBits]
  | succ k ih =>
    rw [onesCount_step, setBits_step, ih (i / 2) (by rw [pow_succ] at hi; omega)]

theorem setBits_le (k i : ℕ) : setBits k i ≤ k := by
  unfold setBits
  calc ((Finset.range k).filter fun b => i.testBit b).card ≤ (Finset.range k).card :=
        Finset.card_filter_le _ _
    _ = k := Finset.card_range k

theorem states_length (k : ℕ) : (states k).length = 2 ^ k := by
  simp [states]

theorem states_getElem? (k i : ℕ) (hi : i < 2 ^ k) : (states k)[i]? = some (onesCount i) := by
  simp [states, List.getElem?_range hi]

theorem sum_range_two_mul (f : ℕ → ℕ) (n : ℕ) :
    ∑ i in Finset.range (2 * n), f i = ∑ m in Finset.range n, (f (2 * m) + f (2 * m + 1)) := by
  induction n with
  | zero => simp
  | succ n ih =>
    rw [show 2 * (n + 1) = 2 * n + 1 + 1 by ring, Finset.sum_range_succ, Finset.sum_range_succ,
      ih, Finset.sum_range_succ]
    ring

theorem card_onesCount (k a : ℕ) :
    ((Finset.range (2 ^ k)).filter fun i => onesCount i = a).card = k.choose a := by
  induction k generalizing a with
  | zero =>
    have h0 : onesCount 0 = 0 := by simp [onesCount]
    cases a with
    | zero => simp [Finset.filter_singleton, h0]
    | succ a => simp [Finset.filter_singleton, h0]
  | succ k ih =>
    rw [Finset.card_filter, pow_succ, mul_comm, sum_range_two_mul, Finset.sum_add_distrib]
    have e0 : ∀ m, onesCount (2 * m) = onesCount m := by
      intro m; rw [onesCount_step (2 * m)]; simp
    have e1 : ∀ m, onesCount (2 * m + 1) = onesCount m + 1 := by
      intro m; rw [onesCount_step (2 * m + 1)]
      have h1 : (2 * m + 1) % 2 = 1 := by omega
      have h2 : (2 * m + 1) / 2 = m := by omega
      rw [h1, h2, add_comm]
    simp only [e0, e1]
    rw [← Finset.card_filter, ih a]
    cases a with
    | zero => simp
    | succ a =>
      simp only [add_left_inj]
      rw [← Finset.card_filter, ih a, Nat.choose_succ_succ, add_comm]

/-! ## Sums over lists -/

theorem dot_eq_sum (r v : List ℝ) : dot r v = (List.zipWith (fun a b => a * b) r v).sum := by
  rw [dot, List.sum_eq_foldl]

theorem map_eq_map_range {β γ : Type} (d : β) (f : β → γ) (l : List β) :
    l.map f = (List.range l.length).map fun j => f (l.getD j d) := by
  apply List.ext_getElem
  · simp
  · intro i h1 h2
    simp only [List.length_map] at h1
    simp [List.getD_eq_getElem?_getD, List.getElem?_eq_getElem h1]

theorem zipWith_eq_map_range (f : ℝ → ℝ → ℝ) (n : ℕ) (r v : List ℝ) (hr : r.length = n)
    (hv : v.length = n) :
    List.zipWith f r v = (List.range n).map fun j => f (r.getD j 0) (v.getD j 0) := by
  apply List.ext_getElem
  · simp [hr, hv]
  · intro i h1 h2
    simp only [List.length_zipWith, hr, hv, min_self] at h1
    simp [List.getD_eq_getElem?_getD, List.getElem?_eq_getElem (hr ▸ h1),
      List.getElem?_eq_getElem (hv ▸ h1)]

theorem sum_map_range (f : ℕ → ℝ) (n : ℕ) :
    ((List.range n).map f).sum = ∑ j in Finset.range n, f j := by
  induction n with
  | zero => simp
  | succ n ih =>
    rw [List.range_succ, List.map_append, List.sum_append, ih, Finset.sum_range_succ]
    simp

theorem list_sum_eq_range (l : List ℝ) :
    l.sum = ∑ i in Finset.range l.length, l.getD i 0 := by
  induction l with
  | nil => simp
  | cons a l ih =>
    rw [List.sum_cons, List.length_cons, Finset.sum_range_succ', ih]
    simp [add_comm]

theorem dot_eq_range (n : ℕ) (r v : List ℝ) (hr : r.length = n) (hv : v.length = n) :
    dot r v = ∑ j in Finset.range n, r.getD j 0 * v.getD j 0 := by
  rw [dot_eq_sum, zipWith_eq_map_range _ n r v hr hv, sum_map_range]

theorem getD_map_range (f : ℕ → ℝ) (n j : ℕ) (hj : j < n) :
    ((List.range n).map f).getD j 0 = f j := by
  simp [List.getD_eq_getElem?_getD, List.getElem?_range hj]

/-! ## Symmetry of the transition matrix -/

theorem entry_probMat_symm (p : List ℝ) (i j : ℕ) :
    entry (probMat p) i j = entry (probMat p) j i := by
  induction p using List.reverseRecOn generalizing i j with
  | nil =>
    simp only [probMat, List.foldl_nil, entry, List.getD_eq_getElem?_getD]
    match i, j with
    | 0, 0 => rfl
    | 0, j + 1 => simp
    | i + 1, 0 => simp
    | i + 1, j + 1 => simp
  | append_singleton p q ih =>
    rw [entry_probMat_snoc, entry_probMat_snoc, ih (i / 2) (j / 2)]
    congr 1
    by_cases h : i % 2 = j % 2
    · rw [if_pos h, if_pos h.symm]
    · rw [if_neg h, if_neg (fun e => h e.symm)]

/-! ## The filter on a square matrix -/

theorem cols_of_square (n : ℕ) (hn : 0 < n) (m : List (List ℝ)) (h : Square n m) :
    cols m = n := by
  obtain ⟨hr, hm⟩ := h
  cases m with
  | nil => simp [rows] at hr; omega
  | cons r m => exact hm r (by simp)

theorem mulVec_square (n : ℕ) (hn : 0 < n) (A : List (List ℝ)) (hA : Square n A)
    (B : List ℝ) (hB : B.length = n) :
    mulVec A B = some ((List.range n).map fun j =>
      ∑ i in Finset.range n, entry A j i * B.getD i 0) := by
  have hc := cols_of_square n hn A hA
  obtain ⟨hr, hm⟩ := hA
  rw [mulVec, if_pos ⟨by omega, by omega, by omega⟩, map_eq_map_range [] _ A]
  rw [rows] at hr
  rw [hr]
  congr 1
  apply List.map_congr_left
  intro j hj
  rw [List.mem_range] at hj
  have hmem : A.getD j [] ∈ A := by
    rw [List.getD_eq_getElem?_getD, List.getElem?_eq_getElem (hr ▸ hj), Option.getD_some]
    exact List.getElem_mem _
  rw [dot_eq_range n _ _ (hm _ hmem) hB]
  rfl

theorem filterUpdate_square (n : ℕ) (hn : 0 < n) (A : List (List ℝ)) (hA : Square n A)
    (wx B : List ℝ) (hwx : wx.length = n) (hB : B.length = n) :
    filterUpdate A wx B = some (margLik n A wx B,
      (List.range n).map fun j => wx.getD j 0 * predVec n A B j / margLik n A wx B) := by
  have hlen : ((List.range n).map fun j =>
      ∑ i in Finset.range n, entry A j i * B.getD i 0).length = n := by simp
  have hsw : dot wx ((List.range n).map fun j =>
      ∑ i in Finset.range n, entry A j i * B.getD i 0) = margLik n A wx B := by
    rw [dot_eq_range n _ _ hwx hlen, margLik]
    apply Finset.sum_congr rfl
    intro j hj
    rw [Finset.mem_range] at hj
    rw [getD_map_range _ n j hj, predVec]
  simp only [filterUpdate, mulVec_square n hn A hA B hB, hsw]
  rw [zipWith_eq_map_range _ n _ _ hwx hlen]
  congr 2
  apply List.map_congr_left
  intro j hj
  rw [List.mem_range] at hj
  rw [getD_map_range _ n j hj, predVec]

theorem density_eq (σ x : ℝ) :
    ISPI * Real.exp (-0.5 * x * x / σ / σ) / σ = specDensity σ x := by
  have h2 : Real.sqrt (2 * Real.pi) = Real.sqrt 2 * Real.sqrt Real.pi :=
    Real.sqrt_mul (by norm_num) _
  have he : -0.5 * x * x / σ / σ = -x ^ 2 / (2 * σ ^ 2) := by
    norm_num
    ring
  rw [specDensity, ISPI, h2, he]
  norm_num
  ring

theorem getD_density (s : List ℝ) (xi : ℝ) (j : ℕ) (hj : j < s.length) :
    (density s xi).getD j 0 = specDensity (s.getD j 0) xi := by
  simp only [density, List.getD_eq_getElem?_getD, List.getElem?_map,
    List.getElem?_eq_getElem hj, Option.map_some', Option.getD_some, density_eq]

theorem filterStep_eq_spec (n : ℕ) (hn : 0 < n) (A : List (List ℝ)) (hA : Square n A)
    (hsym : ∀ i j, entry A i j = entry A j i) (s : List ℝ) (hs : s.length = n)
    (st : ℝ × List ℝ) (hB : st.2.length = n) (xi : ℝ) :
    filterStep A s st xi = some (specFilterStep n A s st xi) := by
  have hwx : (density s xi).length = n := by simp [density, hs]
  have hp : ∀ j, j < n → (specPredicted n A st.2).getD j 0 = predVec n A st.2 j := by
    intro j hj
    rw [specPredicted, getD_map_range _ n j hj, predVec]
    apply Finset.sum_congr rfl
    intro i _
    rw [hsym i j, mul_comm]
  have hsw : (∑ j in Finset.range n,
      specDensity (s.getD j 0) xi * (specPredicted n A st.2).getD j 0) =
      margLik n A (density s xi) st.2 := by
    rw [margLik]
    apply Finset.sum_congr rfl
    intro j hj
    rw [Finset.mem_range] at hj
    rw [hp j hj, getD_density s xi j (hs ▸ hj)]
  simp only [filterStep, filterUpdate_square n hn A hA _ _ hwx hB, specFilterStep, hsw]
  congr 2
  apply List.map_congr_left
  intro j hj
  rw [List.mem_range] at hj
  rw [hp j hj, getD_density s xi j (hs ▸ hj)]

theorem specFilterStep_length (n : ℕ) (A : List (List ℝ)) (s : List ℝ) (st : ℝ × List ℝ)
    (xi : ℝ) : (specFilterStep n A s st xi).2.length = n := by
  simp [specFilterStep]

theorem filterRun_eq_spec (n : ℕ) (hn : 0 < n) (A : List (List ℝ)) (hA : Square n A)
    (hsym : ∀ i j, entry A i j = entry A j i) (s : List ℝ) (hs : s.length = n)
    (x : List ℝ) (st : ℝ × List ℝ) (hB : st.2.length = n) :
    filterRun A s st x = some (x.foldl (specFilterStep n A s) st) := by
  induction x generalizing st with
  | nil => simp [filterRun]
  | cons xi x ih =>
    have h := ih (specFilterStep n A s st xi) (specFilterStep_length n A s st xi)
    rw [filterRun] at h ⊢
    rw [List.foldlM_cons, filterStep_eq_spec n hn A hA hsym s hs st hB xi]
    simpa using h

/-! ## Parameter transform -/

theorem sigmoid_eq (x : ℝ) : sigmoid x = 1 / (1 + Real.exp (-x)) := by
  unfold sigmoid
  norm_num

theorem sigmoid_pos (x : ℝ) : 0 < sigmoid x := by
  rw [sigmoid_eq]
  have := Real.exp_pos (-x)
  positivity

theorem sigmoid_lt_one (x : ℝ) : sigmoid x < 1 := by
  rw [sigmoid_eq]
  have h := Real.exp_pos (-x)
  rw [div_lt_one (by linarith)]
  linarith

theorem sigmoid_injective : Function.Injective sigmoid := by
  intro x y h
  rw [sigmoid_eq, sigmoid_eq] at h
  have hx := Real.exp_pos (-x)
  have hy := Real.exp_pos (-y)
  have h2 : 1 + Real.exp (-x) = 1 + Real.exp (-y) := by
    have := congrArg (fun t => 1 / t) h
    simpa using this
  have h3 : Real.exp (-x) = Real.exp (-y) := by linarith
  have h4 := Real.exp_injective h3
  linarith

theorem sigmoid_surj (p : ℝ) (h0 : 0 < p) (h1 : p < 1) :
    sigmoid (-Real.log (1 / p - 1)) = p := by
  have hpos : 0 < 1 / p - 1 := by
    have : 1 < 1 / p := by rw [lt_div_iff₀ h0]; linarith
    linarith
  rw [sigmoid_eq, neg_neg, Real.exp_log hpos]
  field_simp

theorem transformParams_domain (k : ℕ) (u : List ℝ) (hu : u.length = k + 2) :
    ∃ q, transformParams u = some q ∧ NaturalDomain k q := by
  match u, hu with
  | u0 :: u1 :: rest, hu =>
    refine ⟨_, rfl, _, _, _, rfl, ?_, ⟨?_, ?_⟩, Real.exp_pos u1, ?_⟩
    · simpa using hu
    · have := sigmoid_pos u0; norm_num; linarith
    · have := sigmoid_lt_one u0; norm_num; linarith
    · intro p hp
      rw [List.mem_map] at hp
      obtain ⟨x, _, rfl⟩ := hp
      exact ⟨sigmoid_pos x, sigmoid_lt_one x⟩

theorem transformParams_injective (k : ℕ) (u v : List ℝ) (hu : u.length = k + 2)
    (hv : v.length = k + 2) (h : transformParams u = transformParams v) : u = v := by
  match u, hu, v, hv, h with
  | u0 :: u1 :: ru, _, v0 :: v1 :: rv, _, h =>
    simp only [transformParams, Option.some.injEq, List.cons.injEq] at h
    obtain ⟨h0, h1, h2⟩ := h
    have e0 : u0 = v0 := sigmoid_injective (by linarith)
    have e1 : u1 = v1 := Real.exp_injective h1
    have e2 : ru = rv := List.map_injective_iff.mpr sigmoid_injective h2
    rw [e0, e1, e2]

theorem transformParams_surjective (k : ℕ) (q : List ℝ) (hq : NaturalDomain k q) :
    ∃ u, u.length = k + 2 ∧ transformParams u = some q := by
  obtain ⟨m0, s0, ps, rfl, hlen, ⟨hm1, hm2⟩, hs, hps⟩ := hq
  refine ⟨(-Real.log (1 / (m0 - 1) - 1)) :: Real.log s0 ::
    ps.map (fun p => -Real.log (1 / p - 1)), by simp [hlen], ?_⟩
  simp only [transformParams, Option.some.injEq, List.cons.injEq]
  refine ⟨?_, Real.exp_log hs, ?_⟩
  · rw [sigmoid_surj (m0 - 1) (by linarith) (by linarith)]; norm_num
  · rw [List.map_map]
    conv_rhs => rw [← List.map_id ps]
    apply List.map_congr_left
    intro p hp
    exact sigmoid_surj p (hps p hp).1 (hps p hp).2

/-! ## Refinement of the specification filter, sign symmetry -/

theorem square_step (n : ℕ) (m : List (List ℝ)) (q : ℝ) (h : Square n m) :
    Square (2 * n) (probMatStep m q) := by
  obtain ⟨hr, hm⟩ := h
  refine ⟨?_, ?_⟩
  · rw [probMatStep, kronecker_two, rows, length_flatMap_pair]
    rw [rows] at hr; rw [hr]
  · intro r hr'
    rw [probMatStep, kronecker_two] at hr'
    simp only [List.mem_flatMap, List.mem_cons, List.mem_singleton, List.not_mem_nil,
      or_false] at hr'
    obtain ⟨ra, hra, rfl | rfl⟩ := hr' <;> rw [length_flatMap_pair, hm ra hra]

theorem square_probMat (p : List ℝ) : Square (2 ^ p.length) (probMat p) := by
  induction p using List.reverseRecOn with
  | nil =>
    refine ⟨by simp [probMat, rows], ?_⟩
    intro r hr
    simp only [probMat, List.foldl_nil, List.mem_singleton] at hr
    subst hr
    simp
  | append_singleton p q ih =>
    rw [probMat_snoc, List.length_append, List.length_singleton, pow_succ, mul_comm]
    exact square_step _ _ q ih

theorem sigma_length (m0 s0 : ℝ) (k : ℕ) (M : List ℕ) :
    (sigma m0 s0 k M).length = M.length := by
  simp [sigma]

theorem negloglik_eq_spec (k : ℕ) (par x : List ℝ) (hpar : par.length = k + 2) :
    negloglik par x k (states k) = specNegativeLogLikelihood par x k ∧
      ∃ v, negloglik par x k (states k) = some v := by
  match par, hpar with
  | u0 :: u1 :: rest, hpar =>
    have hlen : (rest.map sigmoid).length = k := by simpa using hpar
    have hA : Square (2 ^ k) (probMat (rest.map sigmoid)) := by
      have := square_probMat (rest.map sigmoid)
      rwa [hlen] at this
    have hs : (sigma (1.0 + sigmoid u0) (Real.exp u1) k (states k)).length = 2 ^ k := by
      rw [sigma_length, states_length]
    have hinit : ((0.0 : ℝ), List.replicate (states k).length
        (1.0 / ((states k).length : ℝ))) = (0, List.replicate (2 ^ k) (1 / (2 ^ k : ℝ))) := by
      rw [states_length]
      push_cast
      norm_num
    have hrun := filterRun_eq_spec (2 ^ k) (by positivity) _ hA
      (entry_probMat_symm _) _ hs x (0, List.replicate (2 ^ k) (1 / (2 ^ k : ℝ))) (by simp)
    simp only [negloglik, specNegativeLogLikelihood, transformParams, hinit, hrun, specNegLogLik]
    exact ⟨trivial, _, rfl⟩

theorem density_neg (s : List ℝ) (xi : ℝ) : density s (-xi) = density s xi := by
  unfold density
  apply List.map_congr_left
  intro sj _
  have e : -0.5 * -xi * -xi = -0.5 * xi * xi := by ring
  rw [e]

theorem filterRun_neg (A : List (List ℝ)) (s : List ℝ) (x : List ℝ) (st : ℝ × List ℝ) :
    filterRun A s st (x.map fun v => -v) = filterRun A s st x := by
  induction x generalizing st with
  | nil => rfl
  | cons xi x ih =>
    have hstep : filterStep A s st (-xi) = filterStep A s st xi := by
      simp only [filterStep, density_neg]
    simp only [filterRun, List.map_cons, List.foldlM_cons, hstep] at ih ⊢
    cases filterStep A s st xi with
    | none => rfl
    | some st1 => exact ih st1

theorem negloglik_neg (par x : List ℝ) (k : ℕ) (M : List ℕ) :
    negloglik par (x.map fun v => -v) k M = negloglik par x k M := by
  simp only [negloglik, filterRun_neg]

/-! ## Positivity along the filter -/

theorem bitFactor_pos (q : ℝ) (h0 : 0 < q) (h2 : q < 2) (a b : Bool) : 0 < bitFactor q a b := by
  unfold bitFactor
  split_ifs <;> linarith

theorem entry_probMat_pos (p : List ℝ) (hp : ∀ q ∈ p, 0 < q ∧ q < 1) (i j : ℕ)
    (hi : i < 2 ^ p.length) (hj : j < 2 ^ p.length) : 0 < entry (probMat p) i j := by
  rw [entry_probMat p i j hi hj, specEntry]
  apply Finset.prod_pos
  intro c hc
  rw [Finset.mem_range] at hc
  have hmem : p.getD c 0 ∈ p := by
    rw [List.getD_eq_getElem?_getD, List.getElem?_eq_getElem hc, Option.getD_some]
    exact List.getElem_mem _
  exact bitFactor_pos _ (hp _ hmem).1 (by linarith [(hp _ hmem).2]) _ _

theorem sigma_pos (m0 s0 : ℝ) (hm1 : 1 < m0) (hm2 : m0 < 2) (hs : 0 < s0) (k : ℕ)
    (M : List ℕ) : ∀ σ ∈ sigma m0 s0 k M, 0 < σ := by
  intro σ hσ
  simp only [sigma, List.mem_map] at hσ
  obtain ⟨a, _, rfl⟩ := hσ
  have h1 : (0 : ℝ) < 2.0 - m0 := by norm_num; linarith
  have h2 : (0 : ℝ) < m0 := by linarith
  have h3 : 0 < (2.0 - m0) ^ a * m0 ^ ((k : ℤ) - (a : ℤ)) :=
    mul_pos (pow_pos h1 a) (zpow_pos h2 _)
  exact mul_pos hs (Real.sqrt_pos.mpr h3)

theorem ISPI_pos : 0 < ISPI := by
  unfold ISPI
  have h1 : 0 < Real.sqrt 2 := Real.sqrt_pos.mpr (by norm_num)
  have h2 : 0 < Real.sqrt Real.pi := Real.sqrt_pos.mpr Real.pi_pos
  positivity

theorem posVec_of_mem (n : ℕ) (v : List ℝ) (hlen : v.length = n) (h : ∀ y ∈ v, 0 < y) :
    PosVec n v := by
  refine ⟨hlen, fun j hj => ?_⟩
  rw [List.getD_eq_getElem?_getD, List.getElem?_eq_getElem (hlen ▸ hj), Option.getD_some]
  exact h _ (List.getElem_mem _)

theorem density_posVec (n : ℕ) (s : List ℝ) (hlen : s.length = n) (hs : ∀ σ ∈ s, 0 < σ)
    (xi : ℝ) : PosVec n (density s xi) := by
  apply posVec_of_mem n _ (by simp [density, hlen])
  intro y hy
  simp only [density, List.mem_map] at hy
  obtain ⟨σ, hσ, rfl⟩ := hy
  have h1 := hs σ hσ
  have h2 := ISPI_pos
  have h3 := Real.exp_pos (-0.5 * xi * xi / σ / σ)
  positivity

theorem predVec_pos (n : ℕ) (A : List (List ℝ))
    (hA : ∀ i j, i < n → j < n → 0 < entry A i j) (B : List ℝ) (hB : PosVec n B) (j : ℕ)
    (hj : j < n) : 0 < predVec n A B j := by
  unfold predVec
  apply Finset.sum_pos
  · intro i hi
    rw [Finset.mem_range] at hi
    exact mul_pos (hA j i hj hi) (hB.2 i hi)
  · exact ⟨0, Finset.mem_range.mpr (by omega)⟩

theorem margLik_pos (n : ℕ) (hn : 0 < n) (A : List (List ℝ))
    (hA : ∀ i j, i < n → j < n → 0 < entry A i j) (wx B : List ℝ) (hwx : PosVec n wx)
    (hB : PosVec n B) : 0 < margLik n A wx B := by
  unfold margLik
  apply Finset.sum_pos
  · intro j hj
    rw [Finset.mem_range] at hj
    exact mul_pos (hwx.2 j hj) (predVec_pos n A hA B hB j hj)
  · exact ⟨0, Finset.mem_range.mpr hn⟩

theorem filterUpdate_pos (n : ℕ) (hn : 0 < n) (A : List (List ℝ)) (hsq : Square n A)
    (hA : ∀ i j, i < n → j < n → 0 < entry A i j) (wx B : List ℝ) (hwx : PosVec n wx)
    (hB : PosVec n B) :
    ∃ sw B', filterUpdate A wx B = some (sw, B') ∧ 0 < sw ∧ PosVec n B' := by
  refine ⟨_, _, filterUpdate_square n hn A hsq wx B hwx.1 hB.1,
    margLik_pos n hn A hA wx B hwx hB, by simp, ?_⟩
  intro j hj
  rw [getD_map_range _ n j hj]
  exact div_pos (mul_pos (hwx.2 j hj) (predVec_pos n A hA B hB j hj))
    (margLik_pos n hn A hA wx B hwx hB)

theorem filterRun_pos (n : ℕ) (hn : 0 < n) (A : List (List ℝ)) (hsq : Square n A)
    (hA : ∀ i j, i < n → j < n → 0 < entry A i j) (s : List ℝ) (hlen : s.length = n)
    (hs : ∀ σ ∈ s, 0 < σ) (x : List ℝ) (st : ℝ × List ℝ) (hB : PosVec n st.2) :
    ∃ st', filterRun A s st x = some st' ∧ PosVec n st'.2 := by
  induction x generalizing st with
  | nil => exact ⟨st, rfl, hB⟩
  | cons xi x ih =>
    obtain ⟨sw, B', h1, _, h3⟩ :=
      filterUpdate_pos n hn A hsq hA _ _ (density_posVec n s hlen hs xi) hB
    obtain ⟨st', h4, h5⟩ := ih (st.1 + Real.log sw, B') h3
    refine ⟨st', ?_, h5⟩
    rw [filterRun] at h4 ⊢
    rw [List.foldlM_cons]
    simp only [filterStep, h1]
    exact h4

/-! ## The sample paths `simEx` -/

theorem values_map_some {α : Type} (l : List α) : values (l.map some) = some l := by
  induction l with
  | nil => rfl
  | cons a l ih => simp [values, ih]

theorem StdDev_simEx (i : ℕ) : StdDev (simEx i) = some (i : ℝ) := by
  have hm : sampleMean (simEx i) = 0 := by simp [sampleMean, simEx]
  have hl : ¬ (simEx i).length < 2 := by simp [simEx]
  rw [StdDev, if_neg hl, sampleStdDev, hm]
  have e : ((simEx i).map fun v => (v - 0) ^ 2).sum / (((simEx i).length : ℝ) - 1) =
      (i : ℝ) ^ 2 := by
    simp only [simEx, List.map_cons, List.map_nil, List.sum_cons, List.sum_nil,
      List.length_cons, List.length_nil]
    push_cast
    ring
  rw [e, Real.sqrt_sq (Nat.cast_nonneg i)]

theorem pathVols_simEx : pathVols simEx 3 = ([0, 1, 2] : List ℝ).map some := by
  simp [pathVols, List.range_succ, StdDev_simEx]

theorem sampleMean_simEx : sampleMean [0, 1, 2] = 1 := by
  norm_num [sampleMean]

theorem sampleStdDev_simEx : sampleStdDev [0, 1, 2] = 1 := by
  rw [sampleStdDev, sampleMean_simEx]
  norm_num

theorem predict_of_values (sim : ℕ → List ℝ) (paths : ℕ) (vol : List ℝ) (hp : 2 ≤ paths)
    (hvol : pathVols sim paths = vol.map some) :
    (predict sim paths).res = [some (sampleMean vol), some (sampleStdDev vol)] ∧
      (predict sim paths).printedEstimate = some (sampleMean vol) ∧
      (predict sim paths).printedStdError =
        some (sampleStdDev vol / Real.sqrt (paths : ℝ)) := by
  have hlen : vol.length = paths := by
    have := congrArg List.length hvol
    simpa [pathVols] using this.symm
  have h0 : ¬ vol.length = 0 := by omega
  have h2 : ¬ vol.length < 2 := by omega
  have h1 : ¬ vol = [] := fun e => h0 (by rw [e]; rfl)
  simp [predict, hvol, values_map_some, Mean, StdDev, h1, h2]

/-! ## Volatilities -/

theorem sigma_getElem? (m0 s0 : ℝ) (k : ℕ) (M : List ℕ) (i a : ℕ) (h : M[i]? = some a) :
    (sigma m0 s0 k M)[i]? = some (s0 * Real.sqrt ((2.0 - m0) ^ a * m0 ^ ((k : ℤ) - (a : ℤ)))) := by
  simp [sigma, h]

theorem zpow_sub_natCast (m0 : ℝ) (k a : ℕ) (h : a ≤ k) :
    m0 ^ ((k : ℤ) - (a : ℤ)) = m0 ^ (k - a) := by
  rw [← Nat.cast_sub h, zpow_natCast]

theorem onesCount_le (k i : ℕ) (hi : i < 2 ^ k) : onesCount i ≤ k := by
  rw [onesCount_eq_setBits k i hi]
  exact setBits_le k i

theorem sigma_states_getElem? (m0 s0 : ℝ) (k i : ℕ) (hi : i < 2 ^ k) :
    (sigma m0 s0 k (states k))[i]? =
      some (s0 * Real.sqrt ((2 - m0) ^ onesCount i * m0 ^ (k - onesCount i))) := by
  rw [sigma_getElem? m0 s0 k _ i _ (states_getElem? k i hi),
    zpow_sub_natCast m0 k _ (onesCount_le k i hi)]
  norm_num

theorem volatility_antitone (m0 s0 : ℝ) (hm1 : 1 ≤ m0) (hm2 : m0 ≤ 2) (hs : 0 ≤ s0)
    (k a b : ℕ) (hab : a ≤ b) (hb : b ≤ k) :
    s0 * Real.sqrt ((2 - m0) ^ b * m0 ^ (k - b)) ≤
      s0 * Real.sqrt ((2 - m0) ^ a * m0 ^ (k - a)) := by
  apply mul_le_mul_of_nonneg_left _ hs
  apply Real.sqrt_le_sqrt
  have h1 : (0 : ℝ) ≤ 2 - m0 := by linarith
  have h2 : 2 - m0 ≤ m0 := by linarith
  have h0 : (0 : ℝ) ≤ m0 := by linarith
  have e1 : (2 - m0) ^ b = (2 - m0) ^ a * (2 - m0) ^ (b - a) := by
    rw [← pow_add]; congr 1; omega
  have e2 : m0 ^ (k - a) = m0 ^ (b - a) * m0 ^ (k - b) := by
    rw [← pow_add]; congr 1; omega
  rw [e1, e2]
  have h3 : (2 - m0) ^ (b - a) ≤ m0 ^ (b - a) := pow_le_pow_left₀ h1 h2 _
  calc (2 - m0) ^ a * (2 - m0) ^ (b - a) * m0 ^ (k - b)
      ≤ (2 - m0) ^ a * m0 ^ (b - a) * m0 ^ (k - b) := by
        apply mul_le_mul_of_nonneg_right _ (pow_nonneg h0 _)
        exact mul_le_mul_of_nonneg_left h3 (pow_nonneg h1 _)
    _ = (2 - m0) ^ a * (m0 ^ (b - a) * m0 ^ (k - b)) := by ring

theorem states_one : states 1 = [0, 1] := by
  simp [states, onesCount, List.range_succ]

theorem sigma_example : sigma (6 / 5) 1 1 (states 1) = [Real.sqrt (6 / 5), Real.sqrt (4 / 5)] := by
  rw [states_one]
  simp only [sigma, List.map_cons, List.map_nil]
  norm_num

/-! ## Row and column sums of the transition matrix -/

theorem sum_range_two_mul_real (f : ℕ → ℝ) (n : ℕ) :
    ∑ i in Finset.range (2 * n), f i = ∑ m in Finset.range n, (f (2 * m) + f (2 * m + 1)) := by
  induction n with
  | zero => simp
  | succ n ih =>
    rw [show 2 * (n + 1) = 2 * n + 1 + 1 by ring, Finset.sum_range_succ, Finset.sum_range_succ,
      ih, Finset.sum_range_succ]
    ring

theorem row_sum_probMat (p : List ℝ) (i : ℕ) (hi : i < 2 ^ p.length) :
    ∑ j in Finset.range (2 ^ p.length), entry (probMat p) i j = 1 := by
  induction p using List.reverseRecOn generalizing i with
  | nil =>
    simp only [List.length_nil, pow_zero, Nat.lt_one_iff] at hi
    subst hi
    simp [probMat, entry]
    norm_num
  | append_singleton p q ih =>
    rw [List.length_append, List.length_singleton, pow_succ] at hi ⊢
    rw [mul_comm, sum_range_two_mul_real]
    have h : ∀ m, entry (probMat (p ++ [q])) i (2 * m) + entry (probMat (p ++ [q])) i (2 * m + 1)
        = entry (probMat p) (i / 2) m := by
      intro m
      rw [entry_probMat_snoc, entry_probMat_snoc]
      have h1 : (2 * m) / 2 = m := by omega
      have h2 : (2 * m + 1) / 2 = m := by omega
      have h3 : (2 * m) % 2 = 0 := by omega
      have h4 : (2 * m + 1) % 2 = 1 := by omega
      rw [h1, h2, h3, h4]
      have hi2 : i % 2 = 0 ∨ i % 2 = 1 := by omega
      rcases hi2 with e | e <;> simp [e] <;> ring
    simp only [h]
    exact ih (i / 2) (by omega)

theorem col_sum_probMat (p : List ℝ) (j : ℕ) (hj : j < 2 ^ p.length) :
    ∑ i in Finset.range (2 ^ p.length), entry (probMat p) i j = 1 := by
  rw [← row_sum_probMat p j hj]
  apply Finset.sum_congr rfl
  intro i _
  exact entry_probMat_symm p i j

theorem row_zero_uniform (p : List ℝ)
    (h : ∀ j, j < 2 ^ p.length → entry (probMat p) 0 j = 1 / 2 ^ p.length) :
    ∀ q ∈ p, q = 1 := by
  induction p using List.reverseRecOn with
  | nil => intro q hq; simp at hq
  | append_singleton p q ih =>
    rw [List.length_append, List.length_singleton] at h
    have hpos : (0 : ℝ) < 2 ^ p.length := by positivity
    have hk : ∀ m, m < 2 ^ p.length →
        entry (probMat p) 0 m * (1 - q / 2) = 1 / 2 ^ (p.length + 1) ∧
        entry (probMat p) 0 m * (q / 2) = 1 / 2 ^ (p.length + 1) := by
      intro m hm
      have a := h (2 * m) (by rw [pow_succ]; omega)
      have b := h (2 * m + 1) (by rw [pow_succ]; omega)
      rw [entry_probMat_snoc] at a b
      have h1 : (2 * m) / 2 = m := by omega
      have h2 : (2 * m + 1) / 2 = m := by omega
      have h3 : (2 * m) % 2 = 0 := by omega
      have h4 : (2 * m + 1) % 2 = 1 := by omega
      rw [h1, h3] at a
      rw [h2, h4] at b
      simp at a b
      exact ⟨by simpa using a, by simpa using b⟩
    have hq : q = 1 := by
      obtain ⟨a, b⟩ := hk 0 (by positivity)
      have hne : entry (probMat p) 0 0 ≠ 0 := by
        intro e
        rw [e, zero_mul] at a
        have : (0 : ℝ) < 1 / 2 ^ (p.length + 1) := by positivity
        linarith
      have : 1 - q / 2 = q / 2 := mul_left_cancel₀ hne (a.trans b.symm)
      linarith
    intro x hx
    rw [List.mem_append, List.mem_singleton] at hx
    rcases hx with hx | hx
    · apply ih _ x hx
      intro m hm
      obtain ⟨_, b⟩ := hk m hm
      rw [hq] at b
      rw [pow_succ] at b
      field_simp at b ⊢
      linarith
    · rw [hx, hq]

/-! ## The filter state as a probability vector -/

theorem filterUpdate_prob (n : ℕ) (hn : 0 < n) (A : List (List ℝ)) (hsq : Square n A)
    (hA : ∀ i j, i < n → j < n → 0 < entry A i j) (wx B : List ℝ) (hwx : PosVec n wx)
    (hB : PosVec n B) :
    ∃ sw B', filterUpdate A wx B = some (sw, B') ∧ PosVec n B' ∧ B'.sum = 1 := by
  have hsw := margLik_pos n hn A hA wx B hwx hB
  refine ⟨_, _, filterUpdate_square n hn A hsq wx B hwx.1 hB.1, ⟨by simp, ?_⟩, ?_⟩
  · intro j hj
    rw [getD_map_range _ n j hj]
    exact div_pos (mul_pos (hwx.2 j hj) (predVec_pos n A hA B hB j hj)) hsw
  · rw [sum_map_range, ← Finset.sum_div]
    exact div_self hsw.ne'

theorem filterRun_prob (n : ℕ) (hn : 0 < n) (A : List (List ℝ)) (hsq : Square n A)
    (hA : ∀ i j, i < n → j < n → 0 < entry A i j) (s : List ℝ) (hlen : s.length = n)
    (hs : ∀ σ ∈ s, 0 < σ) (x : List ℝ) (st : ℝ × List ℝ) (hB : PosVec n st.2)
    (hsum : st.2.sum = 1) :
    ∃ st', filterRun A s st x = some st' ∧ PosVec n st'.2 ∧ st'.2.sum = 1 := by
  induction x generalizing st with
  | nil => exact ⟨st, rfl, hB, hsum⟩
  | cons xi x ih =>
    obtain ⟨sw, B', h1, h3, h3'⟩ :=
      filterUpdate_prob n hn A hsq hA _ _ (density_posVec n s hlen hs xi) hB
    obtain ⟨st', h4, h5⟩ := ih (st.1 + Real.log sw, B') h3 h3'
    refine ⟨st', ?_, h5⟩
    rw [filterRun] at h4 ⊢
    rw [List.foldlM_cons]
    simp only [filterStep, h1]
    exact h4

theorem posVec_nonneg (n : ℕ) (v : List ℝ) (h : PosVec n v) : ∀ b ∈ v, 0 ≤ b := by
  intro b hb
  obtain ⟨i, hi, rfl⟩ := List.getElem_of_mem hb
  have := h.2 i (h.1 ▸ hi)
  rw [List.getD_eq_getElem?_getD, List.getElem?_eq_getElem hi, Option.getD_some] at this
  exact this.le

theorem sum_replicate_uniform (n : ℕ) (hn : 0 < n) :
    (List.replicate n (1.0 / (n : ℝ))).sum = 1 := by
  rw [List.sum_replicate, nsmul_eq_mul]
  have : (n : ℝ) ≠ 0 := by positivity
  field_simp
  norm_num

/-! ## The rows written by `writeResults` -/

theorem length_foldl_set {β : Type} (f : ℕ → β) (l : List ℕ) (h : List β) :
    (l.foldl (fun h i => h.set i (f i)) h).length = h.length := by
  induction l generalizing h with
  | nil => rfl
  | cons i l ih => rw [List.foldl_cons, ih, List.length_set]

theorem getElem?_foldl_set {β : Type} (f : ℕ → β) (l : List ℕ) (h : List β) (j : ℕ) :
    (l.foldl (fun h i => h.set i (f i)) h)[j]? =
      if j ∈ l ∧ j < h.length then some (f j) else h[j]? := by
  induction l generalizing h with
  | nil => simp
  | cons i l ih =>
    rw [List.foldl_cons, ih, List.length_set, List.getElem?_set]
    by_cases hj : j < h.length
    · by_cases hl : j ∈ l
      · simp [hl, hj]
      · by_cases hij : i = j
        · subst hij; simp [hl, hj]
        · have hji : ¬ j = i := fun e => hij e.symm
          simp [hl, hj, hij, hji]
    · have hn : h[j]? = none := List.getElem?_eq_none (by omega)
      by_cases hij : i = j
      · subst hij; simp [hj, hn]
      · simp [hj, hij, hn]

theorem getElem?_header (k n : ℕ) :
    (["m0", "s0"] ++ (List.range k).map (fun i => "p" ++ toString (i + 1)) ++
        ["nll", "k", "volmean", "volsd"])[n]? =
      if n = 0 then some "m0" else if n = 1 then some "s0"
      else if n < k + 2 then some ("p" ++ toString (n - 1))
      else if n = k + 2 then some "nll" else if n = k + 3 then some "k"
      else if n = k + 4 then some "volmean" else if n = k + 5 then some "volsd" else none := by
  match n with
  | 0 => simp
  | 1 => simp
  | n + 2 =>
    have h0 : ¬ (n + 2 = 0) := by omega
    have h1 : ¬ (n + 2 = 1) := by omega
    simp only [h0, h1, if_false, List.append_assoc, List.cons_append, List.nil_append,
      List.getElem?_cons_succ]
    by_cases hn : n < k
    · have hn2 : n + 2 < k + 2 := by omega
      rw [List.getElem?_append_left (by simpa using hn), if_pos hn2]
      simp [List.getElem?_range hn]
    · have hn2 : ¬ (n + 2 < k + 2) := by omega
      rw [List.getElem?_append_right (by simp; omega), if_neg hn2]
      simp only [List.length_map, List.length_range]
      obtain ⟨r, rfl⟩ : ∃ r, n = k + r := ⟨n - k, by omega⟩
      have e : k + r - k = r := by omega
      rw [e]
      match r with
      | 0 => simp
      | 1 => simp
      | 2 => simp
      | 3 => simp
      | r + 4 =>
        have a1 : ¬ (k + (r + 4) + 2 = k + 2) := by omega
        have a2 : ¬ (k + (r + 4) + 2 = k + 3) := by omega
        have a3 : ¬ (k + (r + 4) + 2 = k + 4) := by omega
        have a4 : ¬ (k + (r + 4) + 2 = k + 5) := by omega
        simp [a1, a2, a3, a4]

theorem writeResults_rows (fmt : ℝ → String) (k : ℕ) (res vol : List ℝ)
    (hres : res.length = k + 3) (hvol : vol.length = 2) (kk : ℤ) :
    writeResults fmt res kk vol =
      some (["m0", "s0"] ++ (List.range k).map (fun i => "p" ++ toString (i + 1)) ++
          ["nll", "k", "volmean", "volsd"],
        res.map fmt ++ [toString kk, fmt (vol.getD 0 0), fmt (vol.getD 1 0)]) := by
  have hm : res.length + 1 + vol.length = k + 6 := by omega
  have hc : ¬ (k + 6 < 4 ∨ vol.length < 2) := by omega
  have e4 : k + 6 - 4 = k + 2 := by omega
  have e3 : k + 6 - 3 = k + 3 := by omega
  have e2 : k + 6 - 2 = k + 4 := by omega
  have e1 : k + 6 - 1 = k + 5 := by omega
  have e0 : k + 2 - 2 = k := by omega
  simp only [writeResults, hm, hc, if_false, e4, e3, e2, e1, e0, Option.some.injEq,
    Prod.mk.injEq]
  constructor
  · apply List.ext_getElem?
    intro n
    have hex : (∃ i < k, n = 2 + 1 * i) ↔ (2 ≤ n ∧ n < k + 2) :=
      ⟨by rintro ⟨i, hi, rfl⟩; omega, fun h => ⟨n - 2, by omega, by omega⟩⟩
    simp only [List.getElem?_set, length_foldl_set, getElem?_foldl_set, List.length_set,
      List.length_replicate, List.mem_range', List.getElem?_replicate, getElem?_header, hex]
    have hcases : n = 0 ∨ n = 1 ∨ (2 ≤ n ∧ n < k + 2) ∨ n = k + 2 ∨ n = k + 3 ∨ n = k + 4 ∨
        n = k + 5 ∨ k + 6 ≤ n := by omega
    rcases hcases with h | h | h | h | h | h | h | h
    · subst h; simp
    · subst h; simp
    · have a1 : ¬ (k + 5 = n) := by omega
      have a2 : ¬ (k + 4 = n) := by omega
      have a3 : ¬ (k + 3 = n) := by omega
      have a4 : ¬ (k + 2 = n) := by omega
      have a5 : n < k + 6 := by omega
      have a6 : ¬ (n = 0) := by omega
      have a7 : ¬ (n = 1) := by omega
      simp [a1, a2, a3, a4, a5, a6, a7, h.1, h.2]
    · subst h; simp
    · subst h; simp
    · subst h; simp
    · subst h; simp
    · have a1 : ¬ (k + 5 = n) := by omega
      have a2 : ¬ (k + 4 = n) := by omega
      have a3 : ¬ (k + 3 = n) := by omega
      have a4 : ¬ (k + 2 = n) := by omega
      have a5 : ¬ (n < k + 6) := by omega
      have a6 : ¬ (n = 0) := by omega
      have a7 : ¬ (n = 1) := by omega
      have a8 : ¬ (n < k + 2) := by omega
      have b1 : ¬ (n = k + 5) := by omega
      have b2 : ¬ (n = k + 4) := by omega
      have b3 : ¬ (n = k + 3) := by omega
      have b4 : ¬ (n = k + 2) := by omega
      have b5 : ¬ (1 = n) := by omega
      have b6 : ¬ (0 = n) := by omega
      simp [a1, a2, a3, a4, a5, a6, a7, a8, b1, b2, b3, b4, b5, b6]
  · apply List.ext_getElem?
    intro n
    simp only [List.getElem?_set, length_foldl_set, getElem?_foldl_set, List.length_set,
      List.length_replicate, List.mem_range, List.getElem?_replicate, hres]
    by_cases hn : n < k + 3
    · have a1 : ¬ (k + 5 = n) := by omega
      have a2 : ¬ (k + 4 = n) := by omega
      have a3 : ¬ (k + 3 = n) := by omega
      have a5 : n < k + 6 := by omega
      rw [List.getElem?_append_left (by simpa [hres] using hn)]
      simp [a1, a2, a3, a5, hn, List.getD_eq_getElem?_getD,
        List.getElem?_eq_getElem (hres ▸ hn)]
    · rw [List.getElem?_append_right (by simp [hres]; omega)]
      simp only [List.length_map, hres]
      obtain ⟨r, rfl⟩ : ∃ r, n = k + 3 + r := ⟨n - (k + 3), by omega⟩
      have e : k + 3 + r - (k + 3) = r := by omega
      rw [e]
      match r with
      | 0 => simp
      | 1 => simp
      | 2 => simp
      | r + 3 =>
        have a1 : ¬ (k + 5 = k + 3 + (r + 3)) := by omega
        have a2 : ¬ (k + 4 = k + 3 + (r + 3)) := by omega
        have a3 : ¬ (k = k + 3 + (r + 3)) := by omega
        have a5 : ¬ (k + 3 + (r + 3) < k + 6) := by omega
        simp [a1, a2, a3, a5]

/-! ## Permuted chains give conjugate transition matrices -/

theorem specEntry_cons (q : ℝ) (p : List ℝ) (i j : ℕ) :
    specEntry (q :: p) i j =
      bitFactor q (i.testBit p.length) (j.testBit p.length) *
        specEntry p (i % 2 ^ p.length) (j % 2 ^ p.length) := by
  unfold specEntry
  rw [List.length_cons, Finset.prod_range_succ', mul_comm]
  congr 1
  apply Finset.prod_congr rfl
  intro c hc
  rw [Finset.mem_range] at hc
  have e : p.length + 1 - 1 - (c + 1) = p.length - 1 - c := by omega
  have hlt : p.length - 1 - c < p.length := by omega
  simp only [List.getD_cons_succ, e, Nat.testBit_mod_two_pow, hlt, decide_True, Bool.true_and]

theorem entry_probMat_cons (q : ℝ) (p : List ℝ) (i j : ℕ) (hi : i < 2 ^ p.length * 2)
    (hj : j < 2 ^ p.length * 2) :
    entry (probMat (q :: p)) i j =
      bitFactor q (decide (i / 2 ^ p.length % 2 = 1)) (decide (j / 2 ^ p.length % 2 = 1)) *
        entry (probMat p) (i % 2 ^ p.length) (j % 2 ^ p.length) := by
  have hpos : 0 < 2 ^ p.length := by positivity
  rw [entry_probMat (q :: p) i j (by rw [List.length_cons, pow_succ]; exact hi)
    (by rw [List.length_cons, pow_succ]; exact hj), specEntry_cons,
    entry_probMat p _ _ (Nat.mod_lt _ hpos) (Nat.mod_lt _ hpos),
    Nat.testBit_to_div_mod, Nat.testBit_to_div_mod]

theorem block_div (n a b : ℕ) (hb : b < n) : (n * a + b) / n = a := by
  have hn : 0 < n := by omega
  rw [Nat.mul_add_div hn, Nat.div_eq_of_lt hb, add_zero]

theorem block_mod (n a b : ℕ) (hb : b < n) : (n * a + b) % n = b := by
  rw [Nat.mul_add_mod, Nat.mod_eq_of_lt hb]

theorem block_lt (n m a b : ℕ) (ha : a < m) (hb : b < n) : n * a + b < n * m := by
  calc n * a + b < n * a + n := by omega
    _ = n * (a + 1) := by ring
    _ ≤ n * m := Nat.mul_le_mul_left n ha

theorem onesCount_split (k x : ℕ) :
    onesCount x = onesCount (x / 2 ^ k) + onesCount (x % 2 ^ k) := by
  induction k generalizing x with
  | zero => simp [Nat.mod_one, onesCount]
  | succ k ih =>
    rw [onesCount_step x, ih (x / 2), onesCount_step (x % 2 ^ (k + 1)), pow_succ,
      Nat.div_div_eq_div_mul, mul_comm 2 (2 ^ k), mul_comm (2 ^ k) 2,
      Nat.mod_mul_right_mod, Nat.mod_mul_right_div_self]
    ring

theorem onesCount_swapBits (h : ℕ) (hh : h < 4) : onesCount (swapBits h) = onesCount h := by
  interval_cases h <;> simp [swapBits, onesCount]


theorem swapBits_inj : ∀ h, h < 4 → ∀ h', h' < 4 → swapBits h = swapBits h' → h = h' := by
  decide

theorem swapBits_div (h : ℕ) : swapBits h / 2 % 2 = h % 2 := by
  unfold swapBits
  have ha : h % 2 < 2 := Nat.mod_lt _ (by norm_num)
  have hb : h / 2 % 2 < 2 := Nat.mod_lt _ (by norm_num)
  generalize h % 2 = a at *
  generalize h / 2 % 2 = b at *
  omega

theorem swapBits_mod (h : ℕ) : swapBits h % 2 = h / 2 % 2 := by
  unfold swapBits
  have ha : h % 2 < 2 := Nat.mod_lt _ (by norm_num)
  have hb : h / 2 % 2 < 2 := Nat.mod_lt _ (by norm_num)
  generalize h % 2 = a at *
  generalize h / 2 % 2 = b at *
  omega

theorem swapBits_lt (h : ℕ) : swapBits h < 4 := by
  unfold swapBits
  have ha : h % 2 < 2 := Nat.mod_lt _ (by norm_num)
  have hb : h / 2 % 2 < 2 := Nat.mod_lt _ (by norm_num)
  generalize h % 2 = a at *
  generalize h / 2 % 2 = b at *
  omega

theorem conjugate_nil : Conjugate [] [] :=
  ⟨fun i => i, ⟨fun _ h => h, fun _ _ _ _ h => h⟩, fun _ _ => rfl, fun _ _ _ _ => rfl⟩

theorem conjugate_cons (q : ℝ) (l1 l2 : List ℝ) (hlen : l1.length = l2.length)
    (h : Conjugate l1 l2) : Conjugate (q :: l1) (q :: l2) := by
  obtain ⟨π, ⟨hπ1, hπ2⟩, hπ3, hπ4⟩ := h
  have hpos : 0 < 2 ^ l1.length := by positivity
  have hm : ∀ i, i % 2 ^ l1.length < 2 ^ l1.length := fun i => Nat.mod_lt _ hpos
  have hd : ∀ i, i < 2 ^ l1.length * 2 → i / 2 ^ l1.length < 2 :=
    fun i hi => Nat.div_lt_of_lt_mul hi
  refine ⟨fun i => 2 ^ l1.length * (i / 2 ^ l1.length) + π (i % 2 ^ l1.length), ⟨?_, ?_⟩, ?_, ?_⟩
  · intro i hi
    rw [List.length_cons, pow_succ] at hi ⊢
    exact block_lt _ 2 _ _ (hd i hi) (hπ1 _ (hm i))
  · intro i j hi hj hij
    simp only at hij
    have h1 := congrArg (fun t => t / 2 ^ l1.length) hij
    have h2 := congrArg (fun t => t % 2 ^ l1.length) hij
    simp only [block_div _ _ _ (hπ1 _ (hm _)), block_mod _ _ _ (hπ1 _ (hm _))] at h1 h2
    have h3 := hπ2 _ _ (hm i) (hm j) h2
    rw [← Nat.div_add_mod i (2 ^ l1.length), ← Nat.div_add_mod j (2 ^ l1.length), h1, h3]
  · intro i _
    simp only
    rw [onesCount_split l1.length (_ + _), block_div _ _ _ (hπ1 _ (hm _)),
      block_mod _ _ _ (hπ1 _ (hm _)), hπ3 _ (hm i), ← onesCount_split]
  · intro i j hi hj
    rw [List.length_cons, pow_succ] at hi hj
    simp only
    rw [entry_probMat_cons q l1 i j hi hj, ← hπ4 _ _ (hm i) (hm j)]
    have hi' := block_lt _ 2 _ _ (hd i hi) (hπ1 _ (hm i))
    have hj' := block_lt _ 2 _ _ (hd j hj) (hπ1 _ (hm j))
    rw [hlen] at hi' hj' ⊢
    rw [hlen] at hπ1 hm
    rw [entry_probMat_cons q l2 _ _ hi' hj']
    simp only [block_div _ _ _ (hπ1 _ (hm _)), block_mod _ _ _ (hπ1 _ (hm _))]

theorem conjugate_trans (l1 l2 l3 : List ℝ) (hlen : l1.length = l2.length)
    (h12 : Conjugate l1 l2) (h23 : Conjugate l2 l3) : Conjugate l1 l3 := by
  obtain ⟨π, ⟨a1, a2⟩, a3, a4⟩ := h12
  obtain ⟨ρ, ⟨b1, b2⟩, b3, b4⟩ := h23
  rw [← hlen] at b1 b2 b3 b4
  refine ⟨fun i => ρ (π i), ⟨fun i hi => b1 _ (a1 i hi), ?_⟩, ?_, ?_⟩
  · intro i j hi hj hij
    exact a2 i j hi hj (b2 _ _ (a1 i hi) (a1 j hj) hij)
  · intro i hi
    simp only
    rw [b3 _ (a1 i hi), a3 i hi]
  · intro i j hi hj
    simp only
    rw [b4 _ _ (a1 i hi) (a1 j hj), a4 i j hi hj]


theorem entry_probMat_cons_cons (a b : ℝ) (l : List ℝ) (i j : ℕ) (hi : i < 2 ^ l.length * 4)
    (hj : j < 2 ^ l.length * 4) :
    entry (probMat (a :: b :: l)) i j =
      bitFactor a (decide (i / 2 ^ l.length / 2 % 2 = 1))
          (decide (j / 2 ^ l.length / 2 % 2 = 1)) *
        (bitFactor b (decide (i / 2 ^ l.length % 2 = 1)) (decide (j / 2 ^ l.length % 2 = 1)) *
          entry (probMat l) (i % 2 ^ l.length) (j % 2 ^ l.length)) := by
  have hpos : 0 < 2 ^ l.length * 2 := by positivity
  have e : 2 ^ (b :: l).length = 2 ^ l.length * 2 := by rw [List.length_cons, pow_succ]
  have hi1 : i < 2 ^ (b :: l).length * 2 := by rw [e]; omega
  have hj1 : j < 2 ^ (b :: l).length * 2 := by rw [e]; omega
  rw [entry_probMat_cons a (b :: l) i j hi1 hj1, e,
    entry_probMat_cons b l _ _ (Nat.mod_lt _ hpos) (Nat.mod_lt _ hpos)]
  simp only [Nat.mod_mul_right_div_self, Nat.mod_mul_right_mod, Nat.mod_mod,
    Nat.div_div_eq_div_mul]

theorem conjugate_swap (x y : ℝ) (l : List ℝ) : Conjugate (y :: x :: l) (x :: y :: l) := by
  have hpos : 0 < 2 ^ l.length := by positivity
  have hm : ∀ i, i % 2 ^ l.length < 2 ^ l.length := fun i => Nat.mod_lt _ hpos
  have e : 2 ^ (y :: x :: l).length = 2 ^ l.length * 4 := by
    rw [List.length_cons, List.length_cons, pow_succ, pow_succ]; ring
  have hd : ∀ i, i < 2 ^ l.length * 4 → i / 2 ^ l.length < 4 :=
    fun i hi => Nat.div_lt_of_lt_mul hi
  have hs : ∀ h, swapBits h < 4 := swapBits_lt
  refine ⟨fun i => 2 ^ l.length * swapBits (i / 2 ^ l.length) + i % 2 ^ l.length,
    ⟨?_, ?_⟩, ?_, ?_⟩
  · intro i _
    rw [e]
    exact block_lt _ 4 _ _ (hs _) (hm i)
  · intro i j hi hj hij
    rw [e] at hi hj
    simp only at hij
    have h1 := congrArg (fun t => t / 2 ^ l.length) hij
    have h2 := congrArg (fun t => t % 2 ^ l.length) hij
    simp only [block_div _ _ _ (hm _), block_mod _ _ _ (hm _)] at h1 h2
    have h3 : i / 2 ^ l.length = j / 2 ^ l.length :=
      swapBits_inj _ (hd i hi) _ (hd j hj) h1
    rw [← Nat.div_add_mod i (2 ^ l.length), ← Nat.div_add_mod j (2 ^ l.length), h3, h2]
  · intro i hi
    rw [e] at hi
    simp only
    rw [onesCount_split l.length (_ + _), block_div _ _ _ (hm _), block_mod _ _ _ (hm _),
      onesCount_swapBits _ (hd i hi), ← onesCount_split]
  · intro i j hi hj
    rw [e] at hi hj
    simp only
    rw [entry_probMat_cons_cons y x l i j hi hj,
      entry_probMat_cons_cons x y l _ _ (block_lt _ 4 _ _ (hs _) (hm i))
        (block_lt _ 4 _ _ (hs _) (hm j))]
    simp only [block_div _ _ _ (hm _), block_mod _ _ _ (hm _)]
    simp only [swapBits_div, swapBits_mod]
    ring

theorem conjugate_of_perm (p p' : List ℝ) (h : p.Perm p') : Conjugate p p' := by
  induction h with
  | nil => exact conjugate_nil
  | cons x h ih => exact conjugate_cons x _ _ h.length_eq ih
  | swap x y l => exact conjugate_swap x y l
  | trans h1 _ ih1 ih2 => exact conjugate_trans _ _ _ h1.length_eq ih1 ih2

/-! ## The filter under a renaming of states -/

theorem sum_statePerm (n : ℕ) (π : ℕ → ℕ) (h : StatePerm n π) (f : ℕ → ℝ) :
    ∑ i in Finset.range n, f (π i) = ∑ i in Finset.range n, f i := by
  have hinj : ∀ x ∈ Finset.range n, ∀ y ∈ Finset.range n, π x = π y → x = y := by
    intro x hx y hy hxy
    exact h.2 x y (Finset.mem_range.mp hx) (Finset.mem_range.mp hy) hxy
  have himg : (Finset.range n).image π = Finset.range n := by
    apply Finset.eq_of_subset_of_card_le
    · intro y hy
      rw [Finset.mem_image] at hy
      obtain ⟨x, hx, rfl⟩ := hy
      exact Finset.mem_range.mpr (h.1 x (Finset.mem_range.mp hx))
    · rw [Finset.card_image_of_injOn (fun x hx y hy hxy => hinj x hx y hy hxy)]
  rw [← Finset.sum_image hinj, himg]

theorem predVec_conj (n : ℕ) (A A' : List (List ℝ)) (π : ℕ → ℕ) (hπ : StatePerm n π)
    (hA : ∀ i j, i < n → j < n → entry A' (π i) (π j) = entry A i j) (B B' : List ℝ)
    (hB : ∀ i, i < n → B'.getD (π i) 0 = B.getD i 0) (j : ℕ) (hj : j < n) :
    predVec n A' B' (π j) = predVec n A B j := by
  unfold predVec
  rw [← sum_statePerm n π hπ]
  apply Finset.sum_congr rfl
  intro i hi
  rw [Finset.mem_range] at hi
  rw [hA j i hj hi, hB i hi]

theorem margLik_conj (n : ℕ) (A A' : List (List ℝ)) (π : ℕ → ℕ) (hπ : StatePerm n π)
    (hA : ∀ i j, i < n → j < n → entry A' (π i) (π j) = entry A i j) (wx B B' : List ℝ)
    (hwx : ∀ j, j < n → wx.getD (π j) 0 = wx.getD j 0)
    (hB : ∀ i, i < n → B'.getD (π i) 0 = B.getD i 0) :
    margLik n A' wx B' = margLik n A wx B := by
  unfold margLik
  rw [← sum_statePerm n π hπ]
  apply Finset.sum_congr rfl
  intro j hj
  rw [Finset.mem_range] at hj
  rw [hwx j hj, predVec_conj n A A' π hπ hA B B' hB j hj]

theorem filterRun_conj (n : ℕ) (hn : 0 < n) (A A' : List (List ℝ)) (hsq : Square n A)
    (hsq' : Square n A') (π : ℕ → ℕ) (hπ : StatePerm n π)
    (hA : ∀ i j, i < n → j < n → entry A' (π i) (π j) = entry A i j) (s : List ℝ)
    (hlen : s.length = n) (hs : ∀ j, j < n → s.getD (π j) 0 = s.getD j 0) (x : List ℝ)
    (st st' : ℝ × List ℝ) (h1 : st'.1 = st.1) (hl : st.2.length = n) (hl' : st'.2.length = n)
    (hB : ∀ i, i < n → st'.2.getD (π i) 0 = st.2.getD i 0) :
    ∃ r r', filterRun A s st x = some r ∧ filterRun A' s st' x = some r' ∧ r'.1 = r.1 := by
  induction x generalizing st st' with
  | nil => exact ⟨st, st', rfl, rfl, h1⟩
  | cons xi x ih =>
    have hwl : (density s xi).length = n := by simp [density, hlen]
    have hwx : ∀ j, j < n → (density s xi).getD (π j) 0 = (density s xi).getD j 0 := by
      intro j hj
      rw [getD_density s xi _ (hlen ▸ hπ.1 j hj), getD_density s xi _ (hlen ▸ hj), hs j hj]
    have hm := margLik_conj n A A' π hπ hA (density s xi) st.2 st'.2 hwx hB
    have e := filterUpdate_square n hn A hsq (density s xi) st.2 hwl hl
    have e' := filterUpdate_square n hn A' hsq' (density s xi) st'.2 hwl hl'
    obtain ⟨r, r', a, b, c⟩ := ih
      (st.1 + Real.log (margLik n A (density s xi) st.2),
        (List.range n).map fun j =>
          (density s xi).getD j 0 * predVec n A st.2 j / margLik n A (density s xi) st.2)
      (st'.1 + Real.log (margLik n A' (density s xi) st'.2),
        (List.range n).map fun j =>
          (density s xi).getD j 0 * predVec n A' st'.2 j / margLik n A' (density s xi) st'.2)
      (by simp only [h1, hm]) (by simp) (by simp)
      (by
        intro i hi
        simp only
        rw [getD_map_range _ n _ (hπ.1 i hi), getD_map_range _ n _ hi, hwx i hi,
          predVec_conj n A A' π hπ hA st.2 st'.2 hB i hi, hm])
    refine ⟨r, r', ?_, ?_, c⟩
    · rw [filterRun] at a ⊢
      rw [List.foldlM_cons]
      simp only [filterStep, e]
      exact a
    · rw [filterRun] at b ⊢
      rw [List.foldlM_cons]
      simp only [filterStep, e']
      exact b

theorem negloglik_of_perm (k : ℕ) (par par' x : List ℝ) (m0 s0 : ℝ) (ps ps' : List ℝ)
    (hp : transformParams par = some (m0 :: s0 :: ps))
    (hp' : transformParams par' = some (m0 :: s0 :: ps')) (hlen : ps.length = k)
    (hperm : ps.Perm ps') :
    negloglik par' x k (states k) = negloglik par x k (states k) := by
  have hlen' : ps'.length = k := by rw [← hperm.length_eq, hlen]
  have hsq : Square (2 ^ k) (probMat ps) := by
    have := square_probMat ps
    rwa [hlen] at this
  have hsq' : Square (2 ^ k) (probMat ps') := by
    have := square_probMat ps'
    rwa [hlen'] at this
  obtain ⟨π, hπ, hc, hA⟩ := conjugate_of_perm ps ps' hperm
  rw [hlen] at hπ hc hA
  have hsl : (sigma m0 s0 k (states k)).length = 2 ^ k := by
    rw [sigma_length, states_length]
  have hs : ∀ j, j < 2 ^ k →
      (sigma m0 s0 k (states k)).getD (π j) 0 = (sigma m0 s0 k (states k)).getD j 0 := by
    intro j hj
    rw [List.getD_eq_getElem?_getD, List.getD_eq_getElem?_getD,
      sigma_states_getElem? m0 s0 k _ (hπ.1 j hj), sigma_states_getElem? m0 s0 k _ hj, hc j hj]
  obtain ⟨r, r', a, b, c⟩ := filterRun_conj (2 ^ k) (by positivity) _ _ hsq hsq' π hπ hA _ hsl hs
    x (0.0, List.replicate (states k).length (1.0 / ((states k).length : ℝ)))
    (0.0, List.replicate (states k).length (1.0 / ((states k).length : ℝ))) rfl
    (by simp [states_length]) (by simp [states_length])
    (by
      intro i hi
      have h1 : π i < (states k).length := by rw [states_length]; exact hπ.1 i hi
      have h2 : i < (states k).length := by rw [states_length]; exact hi
      simp [List.getD_eq_getElem?_getD, List.getElem?_replicate, h1, h2])
  simp only [negloglik, hp, hp', a, b, c]

/-! ## Evaluation with the special values of `float64` -/

namespace F64

@[simp] theorem zero_def : (0 : F64) = fin 0 := rfl
@[simp] theorem fin_add_fin (a b : ℝ) : fin a + fin b = fin (a + b) := rfl
@[simp] theorem fin_mul_fin (a b : ℝ) : fin a * fin b = fin (a * b) := rfl
@[simp] theorem fin_sub_fin (a b : ℝ) : fin a - fin b = fin (a - b) := by
  show add (fin a) (neg (fin b)) = fin (a - b)
  simp [add, neg, sub_eq_add_neg]
@[simp] theorem nan_add (x : F64) : nan + x = nan := by cases x <;> rfl
@[simp] theorem add_nan (x : F64) : x + nan = nan := by cases x <;> rfl
@[simp] theorem nan_mul (x : F64) : nan * x = nan := by cases x <;> rfl
@[simp] theorem mul_nan (x : F64) : x * nan = nan := by cases x <;> rfl
@[simp] theorem nan_div (x : F64) : nan / x = nan := by cases x <;> rfl
@[simp] theorem div_nan (x : F64) : x / nan = nan := by cases x <;> rfl
@[simp] theorem neg_nan : -nan = nan := rfl
@[simp] theorem exp_nan : exp nan = nan := rfl
@[simp] theorem log_nan : log nan = nan := rfl
theorem fin_div_fin (a b : ℝ) (hb : b ≠ 0) : fin a / fin b = fin (a / b) := by
  show div (fin a) (fin b) = fin (a / b)
  simp [div, hb]
@[simp] theorem zero_div_zero : fin 0 / fin 0 = nan := by
  show div (fin 0) (fin 0) = nan
  simp [div]
theorem exp_fin_underflow (r : ℝ) (h : r < expUnderflow) : exp (fin r) = fin 0 := by
  have h1 : ¬ expOverflow < r := by
    unfold expOverflow
    unfold expUnderflow at h
    norm_num at h ⊢
    linarith
  simp [exp, h1, h]
theorem exp_fin_normal (r : ℝ) (h1 : expUnderflow ≤ r) (h2 : r ≤ expOverflow) :
    exp (fin r) = fin (Real.exp r) := by
  simp [exp, not_lt.mpr h1, not_lt.mpr h2]

end F64

theorem sigmoidF_zero : sigmoidF (F64.fin 0) = F64.fin (1 / 2) := by
  have h : F64.exp (F64.fin (-1.0 * 0)) = F64.fin 1 := by
    rw [F64.exp_fin_normal _ (by unfold F64.expUnderflow; norm_num)
      (by unfold F64.expOverflow; norm_num)]
    norm_num
  rw [sigmoidF, F64.fin_mul_fin, h, F64.fin_add_fin, F64.fin_div_fin _ _ (by norm_num)]
  norm_num

theorem exp_minus_800 : F64.exp (F64.fin (-800)) = F64.fin 0 :=
  F64.exp_fin_underflow _ (by unfold F64.expUnderflow; norm_num)

theorem probMatF_half :
    probMatF [F64.fin (1 / 2)] =
      [[F64.fin (3 / 4), F64.fin (1 / 4)], [F64.fin (1 / 4), F64.fin (3 / 4)]] := by
  simp [probMatF, probMatStepF, kronecker, kronRow]
  norm_num

theorem sigmaF_zero_scale :
    sigmaF (F64.fin (3 / 2)) (F64.fin 0) 1 [0, 1] = [F64.fin 0, F64.fin 0] := by
  simp [sigmaF, F64.pow, F64.sqrt]
  norm_num


theorem transformParamsF_underflow :
    transformParamsF [F64.fin 0, F64.fin (-800), F64.fin 0] =
      some [F64.fin (3 / 2), F64.fin 0, F64.fin (1 / 2)] := by
  simp only [transformParamsF, sigmoidF_zero, exp_minus_800, List.map_cons, List.map_nil,
    F64.fin_add_fin]
  norm_num

theorem densityF_zero_sigma :
    densityF [F64.fin 0, F64.fin 0] (F64.fin 0) = [F64.nan, F64.nan] := by
  simp [densityF]

theorem exp_eight_gt : (2250 : ℝ) < Real.exp 8 := by
  have h1 : (2.7 : ℝ) < Real.exp 1 := by
    have := Real.exp_one_gt_d9
    linarith
  have h2 : Real.exp 8 = Real.exp 1 ^ 8 := by
    rw [← Real.exp_nat_mul]
    norm_num
  rw [h2]
  calc (2250 : ℝ) < 2.7 ^ 8 := by norm_num
    _ < Real.exp 1 ^ 8 := pow_lt_pow_left₀ h1 (by norm_num) (by norm_num)

theorem exp_neg_eight_lt : Real.exp (-4) ^ 2 < 1 / 2250 := by
  have h : Real.exp (-4) ^ 2 = (Real.exp 8)⁻¹ := by
    rw [← Real.exp_neg, ← Real.exp_nat_mul]
    norm_num
  rw [h, one_div]
  exact inv_strictAnti₀ (by norm_num) exp_eight_gt

theorem density_underflow (σ : ℝ) (h0 : 0 < σ) (h : σ ^ 2 < 1 / 1500) :
    F64.fin ISPI * F64.exp (F64.fin (-0.5) * F64.fin 1 * F64.fin 1 / F64.fin σ / F64.fin σ) /
      F64.fin σ = F64.fin 0 := by
  have hne : σ ≠ 0 := h0.ne'
  have hexp : -0.5 * 1 * 1 / σ / σ < F64.expUnderflow := by
    unfold F64.expUnderflow
    rw [div_div, ← sq, div_lt_iff₀ (by positivity)]
    norm_num
    nlinarith
  rw [F64.fin_mul_fin, F64.fin_mul_fin, F64.fin_div_fin _ _ hne, F64.fin_div_fin _ _ hne,
    F64.exp_fin_underflow _ hexp, F64.fin_mul_fin, F64.fin_div_fin _ _ hne]
  simp


theorem exp_minus_4 : F64.exp (F64.fin (-4)) = F64.fin (Real.exp (-4)) :=
  F64.exp_fin_normal _ (by unfold F64.expUnderflow; norm_num)
    (by unfold F64.expOverflow; norm_num)

theorem transformParamsF_small :
    transformParamsF [F64.fin 0, F64.fin (-4), F64.fin 0] =
      some [F64.fin (3 / 2), F64.fin (Real.exp (-4)), F64.fin (1 / 2)] := by
  simp only [transformParamsF, sigmoidF_zero, exp_minus_4, List.map_cons, List.map_nil,
    F64.fin_add_fin]
  norm_num

theorem sigmaF_small :
    sigmaF (F64.fin (3 / 2)) (F64.fin (Real.exp (-4))) 1 [0, 1] =
      [F64.fin (Real.exp (-4) * Real.sqrt (3 / 2)),
        F64.fin (Real.exp (-4) * Real.sqrt (1 / 2))] := by
  simp [sigmaF, F64.pow, F64.sqrt]
  norm_num

theorem densityF_small :
    densityF [F64.fin (Real.exp (-4) * Real.sqrt (3 / 2)),
        F64.fin (Real.exp (-4) * Real.sqrt (1 / 2))] (F64.fin 1) =
      [F64.fin 0, F64.fin 0] := by
  have hb := exp_neg_eight_lt
  have he : 0 < Real.exp (-4) := Real.exp_pos _
  have h1 : (Real.exp (-4) * Real.sqrt (3 / 2)) ^ 2 < 1 / 1500 := by
    rw [mul_pow, Real.sq_sqrt (by norm_num)]
    nlinarith
  have h2 : (Real.exp (-4) * Real.sqrt (1 / 2)) ^ 2 < 1 / 1500 := by
    rw [mul_pow, Real.sq_sqrt (by norm_num)]
    nlinarith
  simp only [densityF, List.map_cons, List.map_nil]
  rw [density_underflow _ (mul_pos he (Real.sqrt_pos.mpr (by norm_num))) h1,
    density_underflow _ (mul_pos he (Real.sqrt_pos.mpr (by norm_num))) h2]

theorem negloglikF_underflow :
    negloglikF [F64.fin 0, F64.fin (-800), F64.fin 0] (List.replicate 1 (F64.fin 0)) 1
      (states 1) = some F64.nan := by
  simp only [negloglikF, transformParamsF_underflow, states_one, sigmaF_zero_scale,
    probMatF_half, List.replicate, filterRunF, List.foldlM_cons, List.foldlM_nil, filterStepF,
    densityF_zero_sigma, filterUpdateF]
  simp [mulVec, cols, rows, dot]

theorem filterRunF_underflow :
    filterRunF (probMatF [F64.fin (1 / 2)])
        (sigmaF (F64.fin (3 / 2)) (F64.fin (Real.exp (-4))) 1 (states 1))
        (F64.fin 0.0, List.replicate (states 1).length
          (F64.fin 1.0 / F64.fin ((states 1).length : ℝ))) [F64.fin 1] =
      some (F64.inf true, [F64.nan, F64.nan]) := by
  simp only [states_one, sigmaF_small, probMatF_half, List.replicate, filterRunF,
    List.foldlM_cons, List.foldlM_nil, filterStepF, densityF_small, filterUpdateF,
    List.length_cons, List.length_nil]
  have hB : F64.fin 1.0 / F64.fin ((0 + 1 + 1 : ℕ) : ℝ) = F64.fin (1 / 2) := by
    rw [F64.fin_div_fin _ _ (by norm_num)]
    norm_num
  rw [hB]
  simp [mulVec, cols, rows, dot, F64.log]
  rfl

/-! ## Verified properties -/

/-- C2: for `k ≥ 1` switching probabilities in `(0,1)`, `probMat` is a `2^k × 2^k` matrix
with non-negative entries whose every row sums to exactly one. -/
theorem C2_probMat_row_stochastic (k : ℕ) (hk : 1 ≤ k) (p : List ℝ) (hlen : p.length = k)
    (hp : ∀ q ∈ p, 0 < q ∧ q < 1) :
    rows (probMat p) = 2 ^ k ∧ cols (probMat p) = 2 ^ k ∧
      ∀ r ∈ probMat p, r.length = 2 ^ k ∧ (∀ x ∈ r, 0 ≤ x) ∧ r.sum = 1 := by
  have h := rowStochastic_probMat p fun q hq => ⟨(hp q hq).1.le, by linarith [(hp q hq).2]⟩
  rw [hlen] at h
  exact ⟨h.1, cols_of_rowStochastic _ (by positivity) _ h, h.2⟩

/-- C2 at `k = 1`, `p = [1/2]`. -/
theorem C2_probMat_row_stochastic_witness :
    rows (probMat [(1 / 2 : ℝ)]) = 2 ^ 1 ∧ cols (probMat [(1 / 2 : ℝ)]) = 2 ^ 1 ∧
      ∀ r ∈ probMat [(1 / 2 : ℝ)], r.length = 2 ^ 1 ∧ (∀ x ∈ r, 0 ≤ x) ∧ r.sum = 1 :=
  C2_probMat_row_stochastic 1 (le_refl 1) [1 / 2] rfl (by
    intro q hq
    rw [List.mem_singleton] at hq
    subst hq
    norm_num)

/-- C3: `probMat p` is the Kronecker product of the 2×2 chain matrices in the order of
the list; its entry `(i, j)` is the product over the chains `c` of `1 - p_c/2` when bit
`k - 1 - c` of `i` and `j` agree and of `p_c/2` otherwise (the first probability drives
the most significant bit); for the empty list it is the 1×1 matrix `[1]`. -/
theorem C3_probMat_kronecker (p : List ℝ) :
    probMat p = specKron p ∧
      (∀ i j, i < 2 ^ p.length → j < 2 ^ p.length → entry (probMat p) i j = specEntry p i j) ∧
      probMat ([] : List ℝ) = [[1]] := by
  refine ⟨probMat_eq_specKron p, fun i j hi hj => entry_probMat p i j hi hj, ?_⟩
  norm_num [probMat]

/-- C3 at `p = [1/2, 1/5]`, entry `(1, 2)`. -/
theorem C3_probMat_kronecker_witness :
    entry (probMat [(1 / 2 : ℝ), 1 / 5]) 1 2 = specEntry [(1 / 2 : ℝ), 1 / 5] 1 2 :=
  (C3_probMat_kronecker [1 / 2, 1 / 5]).2.1 1 2 (by norm_num) (by norm_num)

/-- C9: for `k ≥ 1`, `states k` has length `2^k` and its element at index `i` is the
number of set bits of `i`. -/
theorem C9_states_popcount (k : ℕ) (hk : 1 ≤ k) :
    (states k).length = 2 ^ k ∧ ∀ i, i < 2 ^ k → (states k)[i]? = some (setBits k i) := by
  refine ⟨states_length k, fun i hi => ?_⟩
  rw [states_getElem? k i hi, onesCount_eq_setBits k i hi]

/-- C9 at `k = 2`, index `3`. -/
theorem C9_states_popcount_witness : (states 2)[3]? = some (setBits 2 3) :=
  (C9_states_popcount 2 (by norm_num)).2 3 (by norm_num)

/-- C10: every element of `states k` is at most `k`, and the number of indices `i` with
`states(k)[i] = a` is the binomial coefficient `C(k, a)`. -/
theorem C10_states_binomial (k a : ℕ) :
    (∀ v ∈ states k, v ≤ k) ∧
      ((Finset.range (states k).length).filter fun i => (states k)[i]? = some a).card =
        k.choose a := by
  constructor
  · intro v hv
    simp only [states, List.mem_map, List.mem_range] at hv
    obtain ⟨i, hi, rfl⟩ := hv
    rw [onesCount_eq_setBits k i hi]
    exact setBits_le k i
  · rw [states_length, ← card_onesCount k a]
    congr 1
    apply Finset.filter_congr
    intro i hi
    rw [Finset.mem_range] at hi
    rw [states_getElem? k i hi]
    simp

/-- C7: for every `k`, `transformParams` is a bijection from the real vectors of length
`k + 2` onto `(1,2) × (0,∞) × (0,1)^k`: it is defined there with values in the domain, it
is injective, and every point of the domain is attained. -/
theorem C7_transformParams_bijection (k : ℕ) :
    (∀ u : List ℝ, u.length = k + 2 → ∃ q, transformParams u = some q ∧ NaturalDomain k q) ∧
      (∀ u v : List ℝ, u.length = k + 2 → v.length = k + 2 →
        transformParams u = transformParams v → u = v) ∧
      (∀ q, NaturalDomain k q → ∃ u, u.length = k + 2 ∧ transformParams u = some q) :=
  ⟨transformParams_domain k, transformParams_injective k, transformParams_surjective k⟩

/-- C7 at `k = 1`, `u = [0, 0, 0]`. -/
theorem C7_transformParams_bijection_witness :
    ∃ q, transformParams [0, 0, 0] = some q ∧ NaturalDomain 1 q :=
  (C7_transformParams_bijection 1).1 [0, 0, 0] rfl

/-- C8: `transformParams` maps the zero vector of length `k + 2` to
`(1.5, 1.0, 0.5, ..., 0.5)`. -/
theorem C8_transformParams_zero (k : ℕ) :
    transformParams (List.replicate (k + 2) 0) = some (1.5 :: 1.0 :: List.replicate k 0.5) := by
  have h : sigmoid 0 = 0.5 := by rw [sigmoid_eq]; norm_num
  simp only [List.replicate_succ, transformParams, h, Real.exp_zero, List.map_replicate]
  norm_num

/-- C1: for `k ≥ 1` and a parameter vector of length `k + 2`, `negloglik` (which predicts
with the product `A * B`) returns, on every return series, the value of the Hamilton
filter of the specification (which predicts with `Σ_i FilterState_i · A[i][j]`). -/
theorem C1_negloglik_refines_spec (k : ℕ) (hk : 1 ≤ k) (par x : List ℝ)
    (hpar : par.length = k + 2) :
    negloglik par x k (states k) = specNegativeLogLikelihood par x k ∧
      ∃ v, negloglik par x k (states k) = some v :=
  negloglik_eq_spec k par x hpar

/-- C1 at `k = 1`, `par = [0, 0, 0]`, `x = [1, 2]`. -/
theorem C1_negloglik_refines_spec_witness :
    negloglik [0, 0, 0] [1, 2] 1 (states 1) = specNegativeLogLikelihood [0, 0, 0] [1, 2] 1 ∧
      ∃ v, negloglik [0, 0, 0] [1, 2] 1 (states 1) = some v :=
  C1_negloglik_refines_spec 1 (le_refl 1) [0, 0, 0] [1, 2] rfl

/-- C5: for `k ≥ 1` and a parameter vector of length `k + 2`, `negloglik` returns the same
value on a return series and on the series with every observation negated. -/
theorem C5_negloglik_sign_flip (k : ℕ) (hk : 1 ≤ k) (par x : List ℝ)
    (hpar : par.length = k + 2) :
    ∃ v, negloglik par (x.map fun xi => -xi) k (states k) = some v ∧
      negloglik par x k (states k) = some v := by
  obtain ⟨v, hv⟩ := (negloglik_eq_spec k par x hpar).2
  exact ⟨v, by rw [negloglik_neg, hv], hv⟩

/-- C5 at `k = 1`, `par = [0, 0, 0]`, `x = [1, -2]`. -/
theorem C5_negloglik_sign_flip_witness :
    ∃ v, negloglik [0, 0, 0] ([1, -2].map fun xi => -xi) 1 (states 1) = some v ∧
      negloglik [0, 0, 0] [1, -2] 1 (states 1) = some v :=
  C5_negloglik_sign_flip 1 (le_refl 1) [0, 0, 0] [1, -2] rfl

/-- C6 (amended): in real arithmetic, for `k ≥ 1`, a parameter vector of length `k + 2` and
the zero series of length `n`, `negloglik` returns a value; every volatility is non-zero,
and at every step `t < n` the marginal likelihood `sw` computed from the filter state
reached after `t` observations is strictly positive. -/
theorem C6_negloglik_zero_series (k : ℕ) (hk : 1 ≤ k) (par : List ℝ)
    (hpar : par.length = k + 2) (n : ℕ) :
    (∃ v, negloglik par (List.replicate n 0) k (states k) = some v) ∧
      ∃ m0 s0 ps, transformParams par = some (m0 :: s0 :: ps) ∧
        (∀ σ ∈ sigma m0 s0 k (states k), σ ≠ 0) ∧
        ∀ t, t < n → ∃ st sw B,
          filterRun (probMat ps) (sigma m0 s0 k (states k))
            (0.0, List.replicate (states k).length (1.0 / ((states k).length : ℝ)))
            (List.replicate t 0) = some st ∧
          filterUpdate (probMat ps) (density (sigma m0 s0 k (states k)) 0) st.2 =
            some (sw, B) ∧ 0 < sw := by
  refine ⟨(negloglik_eq_spec k par _ hpar).2, ?_⟩
  match par, hpar with
  | u0 :: u1 :: rest, hpar =>
    have hlen : (rest.map sigmoid).length = k := by simpa using hpar
    have hm1 : 1 < 1.0 + sigmoid u0 := by have := sigmoid_pos u0; norm_num; linarith
    have hm2 : 1.0 + sigmoid u0 < 2 := by have := sigmoid_lt_one u0; norm_num; linarith
    have hps : ∀ q ∈ rest.map sigmoid, 0 < q ∧ q < 1 := by
      intro q hq
      rw [List.mem_map] at hq
      obtain ⟨y, _, rfl⟩ := hq
      exact ⟨sigmoid_pos y, sigmoid_lt_one y⟩
    have hsig := sigma_pos (1.0 + sigmoid u0) (Real.exp u1) hm1 hm2 (Real.exp_pos u1) k
      (states k)
    have hsl : (sigma (1.0 + sigmoid u0) (Real.exp u1) k (states k)).length = 2 ^ k := by
      rw [sigma_length, states_length]
    have hsq : Square (2 ^ k) (probMat (rest.map sigmoid)) := by
      have := square_probMat (rest.map sigmoid)
      rwa [hlen] at this
    have hA : ∀ i j, i < 2 ^ k → j < 2 ^ k → 0 < entry (probMat (rest.map sigmoid)) i j := by
      intro i j hi hj
      exact entry_probMat_pos _ hps i j (by rwa [hlen]) (by rwa [hlen])
    have hB : PosVec (2 ^ k) (List.replicate (states k).length
        (1.0 / ((states k).length : ℝ))) := by
      apply posVec_of_mem _ _ (by simp [states_length])
      intro y hy
      rw [List.mem_replicate] at hy
      rw [hy.2, states_length]
      positivity
    refine ⟨_, _, _, rfl, fun σ hσ => (hsig σ hσ).ne', fun t _ => ?_⟩
    obtain ⟨st, h1, h2⟩ := filterRun_pos (2 ^ k) (by positivity) _ hsq hA _ hsl hsig
      (List.replicate t 0) (0.0, _) hB
    obtain ⟨sw, B, h3, h4, _⟩ := filterUpdate_pos (2 ^ k) (by positivity) _ hsq hA _ _
      (density_posVec (2 ^ k) _ hsl hsig 0) h2
    exact ⟨st, sw, B, h1, h3, h4⟩

/-- C6 (amended) at `k = 1`, `par = [0, 0, 0]`, the zero series of length 2. -/
theorem C6_negloglik_zero_series_witness :
    ∃ v, negloglik [0, 0, 0] (List.replicate 2 0) 1 (states 1) = some v :=
  (C6_negloglik_zero_series 1 (le_refl 1) [0, 0, 0] rfl 2).1

/-- C4 as stated fails: with the three paths `[0,0,0]`, `[1,-1,0]`, `[2,-2,0]` the per-path
standard deviations are `[0, 1, 2]` and `predict` returns `[1, 1]`, whose second entry is
the sample standard deviation `1`, not the standard error `1/√3`. -/
theorem C4_predict_counterexample :
    pathVols simEx 3 = ([0, 1, 2] : List ℝ).map some ∧ 2 ≤ ([0, 1, 2] : List ℝ).length ∧
      (predict simEx 3).res = [some 1, some 1] ∧
      (predict simEx 3).res ≠
        [some (sampleMean [0, 1, 2]),
          some (sampleStdDev [0, 1, 2] / Real.sqrt ((3 : ℕ) : ℝ))] := by
  have hres : (predict simEx 3).res = [some 1, some 1] := by
    rw [(predict_of_values simEx 3 [0, 1, 2] (by norm_num) pathVols_simEx).1,
      sampleMean_simEx, sampleStdDev_simEx]
  refine ⟨pathVols_simEx, by simp, hres, ?_⟩
  rw [hres, sampleMean_simEx, sampleStdDev_simEx]
  intro h
  simp only [List.cons.injEq, Option.some.injEq, true_and, and_true] at h
  have h3 : Real.sqrt ((3 : ℕ) : ℝ) = 1 := by
    have hpos : 0 < Real.sqrt ((3 : ℕ) : ℝ) := Real.sqrt_pos.mpr (by norm_num)
    rw [eq_div_iff hpos.ne'] at h
    linarith
  have h4 := Real.sq_sqrt (show (0 : ℝ) ≤ ((3 : ℕ) : ℝ) by norm_num)
  rw [h3] at h4
  norm_num at h4

/-- C4 (amended): for `paths ≥ 2` and per-path standard deviations `vol` that are numbers,
`predict` returns the mean of `vol` and the sample standard deviation of `vol`; the
standard error, that standard deviation divided by `√paths`, is only printed. -/
theorem C4_predict_returns_mean_stddev (sim : ℕ → List ℝ) (paths : ℕ) (vol : List ℝ)
    (hp : 2 ≤ paths) (hvol : pathVols sim paths = vol.map some) :
    (predict sim paths).res = [some (sampleMean vol), some (sampleStdDev vol)] ∧
      (predict sim paths).printedEstimate = some (sampleMean vol) ∧
      (predict sim paths).printedStdError =
        some (sampleStdDev vol / Real.sqrt (paths : ℝ)) :=
  predict_of_values sim paths vol hp hvol

/-- C4 (amended) at the three paths `[0,0,0]`, `[1,-1,0]`, `[2,-2,0]`. -/
theorem C4_predict_returns_mean_stddev_witness :
    (predict simEx 3).res = [some (sampleMean [0, 1, 2]), some (sampleStdDev [0, 1, 2])] ∧
      (predict simEx 3).printedEstimate = some (sampleMean [0, 1, 2]) ∧
      (predict simEx 3).printedStdError =
        some (sampleStdDev [0, 1, 2] / Real.sqrt ((3 : ℕ) : ℝ)) :=
  C4_predict_returns_mean_stddev simEx 3 [0, 1, 2] (by norm_num) pathVols_simEx

/-- C11: for `k ≥ 1`, `m0` in `(1,2)` and `s0 > 0`, `sigma` on `states k` has length `2^k`,
its element for a state with active-count `a` is `s0 * sqrt((2-m0)^a * m0^(k-a))`, and every
element is strictly positive. -/
theorem C11_sigma_values (k : ℕ) (hk : 1 ≤ k) (m0 s0 : ℝ) (hm1 : 1 < m0) (hm2 : m0 < 2)
    (hs : 0 < s0) :
    (sigma m0 s0 k (states k)).length = 2 ^ k ∧
      (∀ i a, i < 2 ^ k → (states k)[i]? = some a →
        (sigma m0 s0 k (states k))[i]? =
          some (s0 * Real.sqrt ((2 - m0) ^ a * m0 ^ (k - a)))) ∧
      ∀ v ∈ sigma m0 s0 k (states k), 0 < v := by
  refine ⟨by rw [sigma_length, states_length], ?_, sigma_pos m0 s0 hm1 hm2 hs k (states k)⟩
  intro i a hi ha
  rw [states_getElem? k i hi, Option.some.injEq] at ha
  rw [← ha]
  exact sigma_states_getElem? m0 s0 k i hi

/-- C11 at `k = 1`, `m0 = 6/5`, `s0 = 1`, state `1`. -/
theorem C11_sigma_values_witness :
    (sigma (6 / 5) 1 1 (states 1))[1]? =
      some (1 * Real.sqrt ((2 - 6 / 5) ^ 1 * (6 / 5 : ℝ) ^ (1 - 1))) :=
  (C11_sigma_values 1 (le_refl 1) (6 / 5) 1 (by norm_num) (by norm_num) (by norm_num)).2.1
    1 1 (by norm_num) (by rw [states_one]; rfl)

/-- C12 as stated fails: for `k = 1`, `m0 = 6/5`, `s0 = 1` the state with active-count `0`
has volatility `√(6/5)` and the state with active-count `1` has volatility `√(4/5)`, which
is smaller. -/
theorem C12_sigma_monotone_counterexample :
    ((1 : ℕ) ≤ 1 ∧ (0 : ℝ) < 1 ∧ (1 : ℝ) < 6 / 5 ∧ (6 / 5 : ℝ) < 1.5) ∧
      (states 1).getD 0 0 ≤ (states 1).getD 1 0 ∧
      ¬ ((sigma (6 / 5) 1 1 (states 1)).getD 0 0 ≤ (sigma (6 / 5) 1 1 (states 1)).getD 1 0) := by
  refine ⟨⟨le_refl 1, by norm_num, by norm_num, by norm_num⟩, by rw [states_one]; simp, ?_⟩
  rw [sigma_example]
  simp only [List.getD_cons_zero, List.getD_cons_succ, not_le]
  exact Real.sqrt_lt_sqrt (by norm_num) (by norm_num)

/-- C12 (amended): for `k ≥ 1`, `s0 > 0` and `1 < m0 < 1.5` the volatility produced by
`sigma` is monotone non-increasing in the active-count: a state whose active-count is at
least that of another state has at most its volatility. -/
theorem C12_sigma_antitone (k : ℕ) (hk : 1 ≤ k) (m0 s0 : ℝ) (hs : 0 < s0) (hm1 : 1 < m0)
    (hm2 : m0 < 1.5) (i j : ℕ) (hi : i < 2 ^ k) (hj : j < 2 ^ k)
    (h : (states k).getD i 0 ≤ (states k).getD j 0) :
    (sigma m0 s0 k (states k)).getD j 0 ≤ (sigma m0 s0 k (states k)).getD i 0 := by
  have hm2' : m0 ≤ 2 := by norm_num at hm2; linarith
  simp only [List.getD_eq_getElem?_getD, states_getElem? k _ hi, states_getElem? k _ hj,
    sigma_states_getElem? m0 s0 k _ hi, sigma_states_getElem? m0 s0 k _ hj,
    Option.getD_some] at h ⊢
  exact volatility_antitone m0 s0 hm1.le hm2' hs.le k _ _ h (onesCount_le k j hj)

/-- C12 (amended) at `k = 1`, `m0 = 6/5`, `s0 = 1`, states `0` and `1`. -/
theorem C12_sigma_antitone_witness :
    (sigma (6 / 5) 1 1 (states 1)).getD 1 0 ≤ (sigma (6 / 5) 1 1 (states 1)).getD 0 0 :=
  C12_sigma_antitone 1 (le_refl 1) (6 / 5) 1 (by norm_num) (by norm_num) (by norm_num) 0 1
    (by norm_num) (by norm_num) (by rw [states_one]; simp)

/-- C18: for every list of switching probabilities `probMat` is a symmetric matrix: it is
square and entry `(i, j)` equals entry `(j, i)`. -/
theorem C18_probMat_symmetric (p : List ℝ) :
    rows (probMat p) = 2 ^ p.length ∧ (∀ r ∈ probMat p, r.length = 2 ^ p.length) ∧
      ∀ i j, entry (probMat p) i j = entry (probMat p) j i :=
  ⟨(square_probMat p).1, (square_probMat p).2, entry_probMat_symm p⟩

/-- C20: for every list `p` of `k` switching probabilities every column of `probMat p` sums
to one, so the uniform distribution over the `2^k` states is stationary; and when `k ≥ 1`
and some `p_c ≠ 1`, the weights of the first draw of `simulate` (row 0 of the matrix) are
not the uniform distribution. -/
theorem C20_uniform_stationary (p : List ℝ) :
    (∀ j, j < 2 ^ p.length →
      ∑ i in Finset.range (2 ^ p.length), entry (probMat p) i j = 1) ∧
    (∀ j, j < 2 ^ p.length →
      ∑ i in Finset.range (2 ^ p.length), 1 / (2 : ℝ) ^ p.length * entry (probMat p) i j =
        1 / (2 : ℝ) ^ p.length) ∧
    (1 ≤ p.length → (∃ c ∈ p, c ≠ 1) → ∀ m0 s0 : ℝ,
      ∃ j, j < 2 ^ p.length ∧ (simulateInit (m0 :: s0 :: p)).getD j 0 ≠ 1 / (2 : ℝ) ^ p.length) := by
  refine ⟨col_sum_probMat p, ?_, ?_⟩
  · intro j hj
    rw [← Finset.mul_sum, col_sum_probMat p j hj, mul_one]
  · intro _ hc m0 s0
    by_contra hcon
    push_neg at hcon
    obtain ⟨c, hc1, hc2⟩ := hc
    exact hc2 (row_zero_uniform p (fun j hj => hcon j hj) c hc1)

/-- C20 at `p = [1/2]`. -/
theorem C20_uniform_stationary_witness :
    ∃ j, j < 2 ^ [(1 / 2 : ℝ)].length ∧
      (simulateInit [(3 / 2 : ℝ), 1, 1 / 2]).getD j 0 ≠ 1 / (2 : ℝ) ^ [(1 / 2 : ℝ)].length :=
  (C20_uniform_stationary [1 / 2]).2.2 (le_refl 1) ⟨1 / 2, by simp, by norm_num⟩ (3 / 2) 1

/-- C17 (amended): in real arithmetic, for `k ≥ 1` and a parameter vector of length `k + 2`,
the filter state `B` of `negloglik` is a probability vector after the uniform initialisation
and after the update for each observation: it has `2^k` entries, all non-negative, and they
sum to one. -/
theorem C17_filter_state_probability (k : ℕ) (hk : 1 ≤ k) (par x : List ℝ)
    (hpar : par.length = k + 2) :
    ∃ m0 s0 ps, transformParams par = some (m0 :: s0 :: ps) ∧
      ∀ t, t ≤ x.length → ∃ st,
        filterRun (probMat ps) (sigma m0 s0 k (states k))
          (0.0, List.replicate (states k).length (1.0 / ((states k).length : ℝ)))
          (x.take t) = some st ∧
        st.2.length = 2 ^ k ∧ (∀ b ∈ st.2, 0 ≤ b) ∧ st.2.sum = 1 := by
  match par, hpar with
  | u0 :: u1 :: rest, hpar =>
    have hlen : (rest.map sigmoid).length = k := by simpa using hpar
    have hm1 : 1 < 1.0 + sigmoid u0 := by have := sigmoid_pos u0; norm_num; linarith
    have hm2 : 1.0 + sigmoid u0 < 2 := by have := sigmoid_lt_one u0; norm_num; linarith
    have hps : ∀ q ∈ rest.map sigmoid, 0 < q ∧ q < 1 := by
      intro q hq
      rw [List.mem_map] at hq
      obtain ⟨y, _, rfl⟩ := hq
      exact ⟨sigmoid_pos y, sigmoid_lt_one y⟩
    have hsig := sigma_pos (1.0 + sigmoid u0) (Real.exp u1) hm1 hm2 (Real.exp_pos u1) k
      (states k)
    have hsl : (sigma (1.0 + sigmoid u0) (Real.exp u1) k (states k)).length = 2 ^ k := by
      rw [sigma_length, states_length]
    have hsq : Square (2 ^ k) (probMat (rest.map sigmoid)) := by
      have := square_probMat (rest.map sigmoid)
      rwa [hlen] at this
    have hA : ∀ i j, i < 2 ^ k → j < 2 ^ k → 0 < entry (probMat (rest.map sigmoid)) i j := by
      intro i j hi hj
      exact entry_probMat_pos _ hps i j (by rwa [hlen]) (by rwa [hlen])
    have hB : PosVec (2 ^ k) (List.replicate (states k).length
        (1.0 / ((states k).length : ℝ))) := by
      apply posVec_of_mem _ _ (by simp [states_length])
      intro y hy
      rw [List.mem_replicate] at hy
      rw [hy.2, states_length]
      positivity
    have hsum : (List.replicate (states k).length (1.0 / ((states k).length : ℝ))).sum = 1 :=
      sum_replicate_uniform _ (by rw [states_length]; positivity)
    refine ⟨_, _, _, rfl, fun t _ => ?_⟩
    obtain ⟨st, h1, h2, h3⟩ := filterRun_prob (2 ^ k) (by positivity) _ hsq hA _ hsl hsig
      (x.take t) (0.0, _) hB hsum
    exact ⟨st, h1, h2.1, posVec_nonneg _ _ h2, h3⟩

/-- C17 (amended) at `k = 1`, `par = [0, 0, 0]`, `x = [1, 2]`. -/
theorem C17_filter_state_probability_witness :
    ∃ m0 s0 ps, transformParams [0, 0, 0] = some (m0 :: s0 :: ps) ∧
      ∀ t, t ≤ [(1 : ℝ), 2].length → ∃ st,
        filterRun (probMat ps) (sigma m0 s0 1 (states 1))
          (0.0, List.replicate (states 1).length (1.0 / ((states 1).length : ℝ)))
          ([(1 : ℝ), 2].take t) = some st ∧
        st.2.length = 2 ^ 1 ∧ (∀ b ∈ st.2, 0 ≤ b) ∧ st.2.sum = 1 :=
  C17_filter_state_probability 1 (le_refl 1) [0, 0, 0] [1, 2] rfl

/-- C13: for a final point `X` of length `k + 2` and objective value `F`, `fit` returns the
vector `[1 + logistic(X_0), exp(X_1), q_1, ..., q_k, F]` of length `k + 3`, where `q` is the
ascending sort (a permutation) of `logistic(X_2), ..., logistic(X_{k+1})`. -/
theorem C13_fit_result (k : ℕ) (X : List ℝ) (F : ℝ) (hX : X.length = k + 2) :
    ∃ q : List ℝ, q.Sorted (fun a b => a ≤ b) ∧ q.Perm ((X.drop 2).map sigmoid) ∧
      q.length = k ∧
      fit (OptResult.mk X F) none =
        Outcome.returned ([1 + sigmoid (X.getD 0 0), Real.exp (X.getD 1 0)] ++ q ++ [F]) ∧
      ([1 + sigmoid (X.getD 0 0), Real.exp (X.getD 1 0)] ++ q ++ [F]).length = k + 3 := by
  match X, hX with
  | u0 :: u1 :: rest, hX =>
    have hlen : rest.length = k := by simpa using hX
    have hq : (sortFloat64s (rest.map sigmoid)).length = k := by
      rw [sortFloat64s, List.length_insertionSort, List.length_map, hlen]
    refine ⟨sortFloat64s (rest.map sigmoid), List.sorted_insertionSort _ _,
      List.perm_insertionSort _ _, hq, ?_, ?_⟩
    · simp only [fit, transformParams, List.getD_cons_zero, List.getD_cons_succ]
      norm_num
    · simp [hq]

/-- C13 at `k = 1`, `X = [0, 0, 0]`, `F = 5`. -/
theorem C13_fit_result_witness :
    ∃ q : List ℝ, q.Sorted (fun a b => a ≤ b) ∧ q.Perm (([(0 : ℝ), 0, 0].drop 2).map sigmoid) ∧
      q.length = 1 ∧
      fit (OptResult.mk [0, 0, 0] 5) none =
        Outcome.returned ([1 + sigmoid ([(0 : ℝ), 0, 0].getD 0 0),
          Real.exp ([(0 : ℝ), 0, 0].getD 1 0)] ++ q ++ [5]) ∧
      ([1 + sigmoid ([(0 : ℝ), 0, 0].getD 0 0),
          Real.exp ([(0 : ℝ), 0, 0].getD 1 0)] ++ q ++ [5]).length = 1 + 3 :=
  C13_fit_result 1 [0, 0, 0] 5 rfl

/-- C14 as stated fails: when the optimizer returns an error for the final point
`[0, 0, 0]`, `fit` ends the process with exit code `-1` and returns nothing to its caller. -/
theorem C14_fit_error_counterexample :
    fit (OptResult.mk [0, 0, 0] 0) (some "optimize: failure") = Outcome.exited (-1) ∧
      ¬ ∃ r, fit (OptResult.mk [0, 0, 0] 0) (some "optimize: failure") = Outcome.returned r := by
  constructor
  · rfl
  · rintro ⟨r, hr⟩
    simp [fit] at hr

/-- C14 (amended): when the optimizer signals an error, `fit` ends the process through
`os.Exit(-1)`, whatever point the optimizer reached. -/
theorem C14_fit_error_exits (result : OptResult) (e : String) :
    fit result (some e) = Outcome.exited (-1) := rfl

/-- C15 at the input `-i r.csv -k 1 -w 0 -n 200`: `main` does not reject the flags, it goes
on to `getData`, `fit` and `predict` with a path length of `0`, and `simulate` panics for
that path length. -/
theorem C15_main_accepts_zero_window :
    main (Config.mk 1 0 200 "r.csv" "results.csv") =
      [Call.getData "r.csv", Call.fit 1, Call.predict 200 0,
        Call.writeResults 1 "results.csv"] ∧
    ∀ (draw : ℕ → List ℝ → ℕ) (z : ℕ → ℝ) (par : List ℝ), simulate draw z par 0 = none := by
  constructor
  · decide
  · intro draw z par
    unfold simulate
    split <;> simp

/-- C16: for `k ≥ 1`, a fit result of length `k + 3` and a forecast of length `2`,
`writeResults` builds the header `m0, s0, p1, ..., pk, nll, k, volmean, volsd` of length
`k + 6` and a data row of the same length: the formatted entries of `res`, then `k`, then
the two entries of `vol`. -/
theorem C16_writeResults_rows (k : ℕ) (hk : 1 ≤ k) (fmt : ℝ → String) (res vol : List ℝ)
    (hres : res.length = k + 3) (hvol : vol.length = 2) :
    writeResults fmt res (k : ℤ) vol =
      some (["m0", "s0"] ++ (List.range k).map (fun i => "p" ++ toString (i + 1)) ++
          ["nll", "k", "volmean", "volsd"],
        res.map fmt ++ [toString (k : ℤ), fmt (vol.getD 0 0), fmt (vol.getD 1 0)]) ∧
      (["m0", "s0"] ++ (List.range k).map (fun i => "p" ++ toString (i + 1)) ++
          ["nll", "k", "volmean", "volsd"]).length = k + 6 ∧
      (res.map fmt ++ [toString (k : ℤ), fmt (vol.getD 0 0), fmt (vol.getD 1 0)]).length =
        k + 6 := by
  refine ⟨writeResults_rows fmt k res vol hres hvol k, ?_, ?_⟩
  · simp
  · simp [hres]

/-- C16 at `k = 1`. -/
theorem C16_writeResults_rows_witness :
    writeResults (fun _ => "x") [(1 : ℝ), 2, 3, 4] ((1 : ℕ) : ℤ) [5, 6] =
      some (["m0", "s0"] ++ (List.range 1).map (fun i => "p" ++ toString (i + 1)) ++
          ["nll", "k", "volmean", "volsd"],
        [(1 : ℝ), 2, 3, 4].map (fun _ => "x") ++ [toString (((1 : ℕ) : ℤ)),
          (fun _ => "x") ([(5 : ℝ), 6].getD 0 0), (fun _ => "x") ([(5 : ℝ), 6].getD 1 0)]) :=
  (C16_writeResults_rows 1 (le_refl 1) (fun _ => "x") [1, 2, 3, 4] [5, 6] rfl rfl).1

/-- C19: for `k ≥ 1` and a parameter vector `par` of length `k + 2`, `negloglik` returns the
same value at `par` and at any `par'` that keeps the first two coordinates and permutes the
`k` switching-probability coordinates; hence it also returns that value at any parameter
vector whose transform is the vector of sorted parameters that `fit` returns. -/
theorem C19_negloglik_permutation (k : ℕ) (hk : 1 ≤ k) (par par' x : List ℝ)
    (hpar : par.length = k + 2) (htake : par'.take 2 = par.take 2)
    (hperm : (par.drop 2).Perm (par'.drop 2)) :
    (∃ v, negloglik par' x k (states k) = some v ∧ negloglik par x k (states k) = some v) ∧
      ∀ (F : ℝ) (r par'' : List ℝ), fit (OptResult.mk par F) none = Outcome.returned r →
        transformParams par'' = some r.dropLast →
        negloglik par'' x k (states k) = negloglik par x k (states k) := by
  match par, hpar with
  | u0 :: u1 :: rest, hpar =>
    have hlen : (rest.map sigmoid).length = k := by simpa using hpar
    constructor
    · obtain ⟨v, hv⟩ := (negloglik_eq_spec k (u0 :: u1 :: rest) x hpar).2
      refine ⟨v, ?_, hv⟩
      rw [← hv]
      have e : par' = u0 :: u1 :: par'.drop 2 := by
        rw [← List.take_append_drop 2 par', htake]
        simp
      rw [e]
      simp only [List.drop_succ_cons, List.drop_zero] at hperm
      exact negloglik_of_perm k _ _ x _ _ (rest.map sigmoid) ((par'.drop 2).map sigmoid) rfl rfl
        hlen (hperm.map sigmoid)
    · intro F r par'' hfit hpar''
      simp only [fit, transformParams, Outcome.returned.injEq] at hfit
      rw [← hfit] at hpar''
      simp only [List.take_succ_cons, List.take_zero, List.drop_succ_cons, List.drop_zero,
        List.cons_append, List.nil_append] at hpar''
      have e : ((1.0 + sigmoid u0) :: Real.exp u1 ::
          (sortFloat64s (rest.map sigmoid) ++ [F])).dropLast =
          (1.0 + sigmoid u0) :: Real.exp u1 :: sortFloat64s (rest.map sigmoid) := by
        rw [show (1.0 + sigmoid u0) :: Real.exp u1 :: (sortFloat64s (rest.map sigmoid) ++ [F]) =
          ((1.0 + sigmoid u0) :: Real.exp u1 :: sortFloat64s (rest.map sigmoid)) ++ [F] by simp,
          List.dropLast_concat]
      rw [e] at hpar''
      exact negloglik_of_perm k _ _ x _ _ (rest.map sigmoid)
        (sortFloat64s (rest.map sigmoid)) rfl hpar'' hlen (List.perm_insertionSort _ _).symm

/-- C19 at `k = 2`, `par = [0, 0, 1, 2]`, `par' = [0, 0, 2, 1]`, `x = [1]`. -/
theorem C19_negloglik_permutation_witness :
    ∃ v, negloglik [0, 0, 2, 1] [1] 2 (states 2) = some v ∧
      negloglik [0, 0, 1, 2] [1] 2 (states 2) = some v :=
  (C19_negloglik_permutation 2 (by norm_num) [0, 0, 1, 2] [0, 0, 2, 1] [1] rfl rfl
    (List.Perm.swap 2 1 [])).1

/-- C6 as stated fails on `float64`: for `k = 1`, `par = [0, -800, 0]` and the zero series of
length 1, `math.Exp(-800)` underflows to `s0 = 0`, every `sigma_j` is `0`, the densities are
`0/0 = NaN` and `negloglik` returns NaN. -/
theorem C6_negloglik_zero_series_counterexample :
    ((1 : ℕ) ≤ 1 ∧ [F64.fin 0, F64.fin (-800), F64.fin 0].length = 1 + 2) ∧
      transformParamsF [F64.fin 0, F64.fin (-800), F64.fin 0] =
        some [F64.fin (3 / 2), F64.fin 0, F64.fin (1 / 2)] ∧
      sigmaF (F64.fin (3 / 2)) (F64.fin 0) 1 (states 1) = [F64.fin 0, F64.fin 0] ∧
      negloglikF [F64.fin 0, F64.fin (-800), F64.fin 0] (List.replicate 1 (F64.fin 0)) 1
        (states 1) = some F64.nan :=
  ⟨⟨le_refl 1, rfl⟩, transformParamsF_underflow, by rw [states_one, sigmaF_zero_scale],
    negloglikF_underflow⟩

/-- C17 as stated fails on `float64`: for `k = 1`, `par = [0, -4, 0]` and `x = [1]` both
densities `math.Exp(-0.5/sigma_j^2)` underflow to `0`, so `sw = 0`, the log-likelihood is
`-Inf` and the filter state after the update is `[NaN, NaN]`. -/
theorem C17_filter_state_counterexample :
    ((1 : ℕ) ≤ 1 ∧ [F64.fin 0, F64.fin (-4), F64.fin 0].length = 1 + 2) ∧
      transformParamsF [F64.fin 0, F64.fin (-4), F64.fin 0] =
        some [F64.fin (3 / 2), F64.fin (Real.exp (-4)), F64.fin (1 / 2)] ∧
      filterRunF (probMatF [F64.fin (1 / 2)])
          (sigmaF (F64.fin (3 / 2)) (F64.fin (Real.exp (-4))) 1 (states 1))
          (F64.fin 0.0, List.replicate (states 1).length
            (F64.fin 1.0 / F64.fin ((states 1).length : ℝ))) [F64.fin 1] =
        some (F64.inf true, [F64.nan, F64.nan]) :=
  ⟨⟨le_refl 1, rfl⟩, transformParamsF_small, filterRunF_underflow⟩

end MSM
